import Mathlib

/-!
# serve: a static-file HTTP server (serve.go)

A shallow embedding of `serve.go` and of the Go standard-library primitives it
calls (`path/filepath`, `strings`, `net/http.ServeFile`, `compress/gzip`),
followed by theorems about the request pipeline.

Conventions.
* A Go `string` / `[]byte` is a `List Char`, one `Char` per byte.
* The target is a Unix system: the only path separator is the slash and there
  are no volume names.
* A handler invocation `fn(w, r)` is modelled by the ordered list of calls it
  makes on its `http.ResponseWriter` (and on standard output) together with
  the way the invocation ends (normal return or panic). Header keys are
  canonical MIME header keys and status codes are in the range 100 to 999
  (`WriteHeader` panics on any other code).
* The server's response writer is the HTTP/1.x one of `net/http`, on a
  connection that stays up and is not hijacked: it refuses a write only for the
  reasons `response.write` has, a status without body or a declared
  `Content-Length` that would be exceeded.
-/

namespace Serve

/-- A Go string: a sequence of bytes. -/
abbrev GoString := List Char

/-! ## package os -/

namespace os

/-- Go `os.IsPathSeparator` on Unix: `PathSeparator == c`. -/
def IsPathSeparator (c : Char) : Bool := c == '/'

end os

/-! ## package strings -/

namespace strings

/-- Go `strings.Contains(s, substr)`: `substr` occurs somewhere within `s`. -/
def Contains : GoString → GoString → Bool
  | [], substr => substr.isPrefixOf []
  | c :: s, substr => substr.isPrefixOf (c :: s) || Contains s substr

/-- Go `strings.HasSuffix(s, suffix)`. -/
def HasSuffix (s suffix : GoString) : Bool := suffix.isSuffixOf s

/-- Go `strings.Join(elems, sep)`. -/
def Join : List GoString → GoString → GoString
  | [], _ => []
  | [e], _ => e
  | e :: es, sep => e ++ sep ++ Join es sep

/-- Splitting at every byte satisfying `p`; the pieces between two adjacent
separators, before the first and after the last one are kept (possibly empty). -/
def splitBy (p : Char → Bool) : GoString → List GoString
  | [] => [[]]
  | c :: s =>
    if p c then [] :: splitBy p s
    else
      match splitBy p s with
      | [] => [[c]]
      | piece :: pieces => (c :: piece) :: pieces

/-- Go `strings.FieldsFunc(s, f)`: the maximal non-empty runs of bytes not satisfying `f`. -/
def FieldsFunc (s : GoString) (f : Char → Bool) : List GoString :=
  (splitBy f s).filter (fun piece => !piece.isEmpty)

end strings

/-! ## package path/filepath (Unix) -/

namespace filepath

/-- The inner loop of the `..` case of `Clean`, run right after `out.w--`:
`for out.w > dotdot && !os.IsPathSeparator(out.index(out.w)) { out.w-- }`.
The buffer `buf[:w+1]` is given last byte first, so its head is `out.index(out.w)`
and the remainder is `buf[:w]`. -/
def backtrackLoop (dotdot : Nat) : List Char → List Char
  | [] => []
  | c :: below =>
    if below.length > dotdot && !os.IsPathSeparator c then backtrackLoop dotdot below else below

/-- The `can backtrack` branch of `Clean`: drop the last element of `out` (and the
separator before it), never going below index `dotdot`. -/
def backtrack (dotdot : Nat) (out : GoString) : GoString :=
  (backtrackLoop dotdot out.reverse).reverse

/-- The condition `r == n || os.IsPathSeparator(path[r])` on the unread input `path[r:]`. -/
def elemEnd : GoString → Bool
  | [] => true
  | c :: _ => os.IsPathSeparator c

/-- The variables of `Clean` that its main loop updates: the written part of
the output buffer (`out.buf[:out.w]`, so `out.w` is its length) and `dotdot`. -/
structure lazybuf where
  out : GoString
  dotdot : Nat
deriving DecidableEq, Repr

/-- The main loop `for r < n { switch { ... } }` of `Clean`. The second argument
bounds the number of iterations, the third is the unread input `path[r:]`. -/
def cleanLoop (rooted : Bool) : Nat → GoString → lazybuf → lazybuf
  | 0, _, b => b
  | _ + 1, [], b => b
  | fuel + 1, c :: rest, b =>
    if os.IsPathSeparator c then
      -- empty path element
      cleanLoop rooted fuel rest b
    else if c == '.' && elemEnd rest then
      -- . element
      cleanLoop rooted fuel rest b
    else if c == '.' && rest.head? == some '.' && elemEnd rest.tail then
      -- .. element: remove to last separator
      if b.out.length > b.dotdot then
        -- can backtrack
        cleanLoop rooted fuel rest.tail ⟨backtrack b.dotdot b.out, b.dotdot⟩
      else if !rooted then
        -- cannot backtrack, but not rooted, so append .. element
        let out1 := if b.out.length > 0 then b.out ++ ['/'] else b.out
        let out2 := out1 ++ ['.', '.']
        cleanLoop rooted fuel rest.tail ⟨out2, out2.length⟩
      else
        cleanLoop rooted fuel rest.tail b
    else
      -- real path element: add slash if needed, copy element
      let out1 :=
        if (rooted && b.out.length != 1) || (!rooted && b.out.length != 0) then b.out ++ ['/']
        else b.out
      cleanLoop rooted fuel ((c :: rest).dropWhile (fun x => !os.IsPathSeparator x))
        ⟨out1 ++ (c :: rest).takeWhile (fun x => !os.IsPathSeparator x), b.dotdot⟩

/-- The end of `Clean`: `if out.w == 0 { out.append('.') }; return out.string()`. -/
def finish (b : lazybuf) : GoString :=
  if b.out.length = 0 then ['.'] else b.out

/-- Go `filepath.Clean` on Unix (no volume name, `FromSlash` is the identity). -/
def Clean (path : GoString) : GoString :=
  match path with
  | [] => ['.']
  | c :: rest =>
    if os.IsPathSeparator c then finish (cleanLoop true rest.length rest ⟨['/'], 1⟩)
    else finish (cleanLoop false (c :: rest).length (c :: rest) ⟨[], 0⟩)

/-- Go `filepath.Join` on Unix: the elements from the first non-empty one on are
joined with slashes and cleaned; when every element is empty the result is empty. -/
def Join : List GoString → GoString
  | [] => []
  | e :: es => if e ≠ [] then Clean (strings.Join (e :: es) ['/']) else Join es

/-- Go `filepath.Split`: the path up to and including its last separator, and the rest. -/
def Split (path : GoString) : GoString × GoString :=
  ((path.reverse.dropWhile (fun x => !os.IsPathSeparator x)).reverse,
   (path.reverse.takeWhile (fun x => !os.IsPathSeparator x)).reverse)

end filepath

/-! ## package net/http: requests, response writers, handlers -/

/-- Go `http.Header` (`map[string][]string`) with canonical keys. -/
abbrev Header := List (GoString × List GoString)

namespace Header

/-- The values stored under `key`, if any. -/
def find : Header → GoString → Option (List GoString)
  | [], _ => none
  | (k, vs) :: h, key => if k = key then some vs else find h key

/-- Go `Header.Get`: the first value stored under `key`, or the empty string. -/
def Get (h : Header) (key : GoString) : GoString :=
  match find h key with
  | some (v :: _) => v
  | _ => []

/-- Go `Header.Del`. -/
def Del : Header → GoString → Header
  | [], _ => []
  | (k, vs) :: h, key => if k = key then Del h key else (k, vs) :: Del h key

/-- Go `Header.Set`: replaces whatever was stored under `key` by the single value. -/
def Set (h : Header) (key value : GoString) : Header := (key, [value]) :: Del h key

end Header

/-- The part of `url.URL` the program reads. -/
structure URL where
  Path : GoString
  RawQuery : GoString
deriving DecidableEq, Repr

/-- The part of `http.Request` the program reads. -/
structure Request where
  Method : GoString
  URL : URL
  Header : Header
deriving DecidableEq, Repr

/-- One observable step of a handler invocation. The first four are calls on the
handler's `http.ResponseWriter`; `print` writes to standard output; the next
three are calls on a `gzip.Writer`. The last two are the header updates a
handler makes only after looking at the header map:
`if _, ok := w.Header()[key]; !ok { w.Header().Set(key, value) }` and
`if w.Header().Get(guard) == "" { w.Header().Set(key, value) }`. -/
inductive Action where
  | setHeader (key value : GoString)
  | delHeader (key : GoString)
  | writeHeader (code : Nat)
  | write (b : GoString)
  | print (s : GoString)
  | gzipNewWriter
  | gzipWrite (b : GoString)
  | gzipClose
  | setHeaderIfAbsent (key value : GoString)
  | setHeaderIfEmpty (guard key value : GoString)
deriving DecidableEq, Repr

/-- How a handler invocation ends. An early `return` is a normal return. -/
inductive Exit where
  | returned
  | panicked
deriving DecidableEq, Repr

/-- What one invocation `fn(w, r)` does. -/
structure Run where
  actions : List Action
  exit : Exit
deriving DecidableEq, Repr

/-- Go `http.HandlerFunc`. -/
abbrev HandlerFunc := Request → Run

namespace strconv

/-- The decimal digit for a value below ten. -/
def digit (d : Nat) : Char :=
  match d with
  | 0 => '0'
  | 1 => '1'
  | 2 => '2'
  | 3 => '3'
  | 4 => '4'
  | 5 => '5'
  | 6 => '6'
  | 7 => '7'
  | 8 => '8'
  | _ => '9'

/-- The decimal digits of `n`, most significant first; the first argument bounds
their number. -/
def digits : Nat → Nat → GoString
  | 0, _ => []
  | fuel + 1, n => if n < 10 then [digit n] else digits fuel (n / 10) ++ [digit (n % 10)]

/-- Go `strconv.FormatInt(n, 10)` for a non-negative `n`. -/
def FormatInt (n : Nat) : GoString := digits (n + 1) n

/-- The value of a decimal digit. -/
def digitValue (c : Char) : Option Nat :=
  if c = '0' then some 0
  else if c = '1' then some 1
  else if c = '2' then some 2
  else if c = '3' then some 3
  else if c = '4' then some 4
  else if c = '5' then some 5
  else if c = '6' then some 6
  else if c = '7' then some 7
  else if c = '8' then some 8
  else if c = '9' then some 9
  else none

/-- One step of reading a decimal number from left to right. -/
def accumulate (acc : Option Nat) (c : Char) : Option Nat :=
  match acc, digitValue c with
  | some a, some d => some (a * 10 + d)
  | _, _ => none

/-- The value of a non-empty string of decimal digits. -/
def parseDigits (s : GoString) : Option Nat :=
  if s = [] then none else s.foldl accumulate (some 0)

/-- The `v` of `v, err := strconv.ParseInt(s, 10, 64)` when `err == nil && v >= 0`:
an optional sign, then decimal digits, the value within `int64`. -/
def parseNonNegative (s : GoString) : Option Nat :=
  match s with
  | [] => none
  | c :: ds =>
    if c = '+' then (parseDigits ds).filter (fun v => decide (v < 2 ^ 63))
    else if c = '-' then (parseDigits ds).filter (fun v => decide (v = 0))
    else (parseDigits (c :: ds)).filter (fun v => decide (v < 2 ^ 63))

end strconv

namespace http

/-- Go `bodyAllowedForStatus` of net/http: no body with 1xx, 204 and 304. -/
def bodyAllowedForStatus (status : Nat) : Bool :=
  if 100 ≤ status ∧ status ≤ 199 then false
  else if status = 204 then false
  else if status = 304 then false
  else true

/-- The informational codes `WriteHeader` sends at once without making them the
status of the response: 1xx other than 101. -/
def isInformational (code : Nat) : Bool :=
  decide (100 ≤ code ∧ code ≤ 199 ∧ code ≠ 101)

end http

/-- The state of the server's own `http.ResponseWriter` (`*http.response`): the
live header map, the status and header snapshot taken by the first
`WriteHeader`, the declared content length if there is one, the number of body
bytes offered so far, and the body bytes accepted. -/
structure ResponseWriter where
  header : Header
  wroteHeader : Option (Nat × Header)
  contentLength : Option Nat
  written : Nat
  body : GoString
deriving DecidableEq, Repr

namespace ResponseWriter

/-- A fresh response writer. -/
def fresh : ResponseWriter := ⟨[], none, none, 0, []⟩

/-- Go `(*response).WriteHeader(code)`: only the first call with a status that is not
informational counts; it fixes the status, and a `Content-Length` header that is
set then either becomes the declared length or, if it does not parse to a
non-negative number, is deleted. -/
def WriteHeader (w : ResponseWriter) (code : Nat) : ResponseWriter :=
  match w.wroteHeader with
  | some _ => w
  | none =>
    if http.isInformational code then w
    else if w.header.Get "Content-Length".data = [] then
      { w with wroteHeader := some (code, w.header) }
    else
      match strconv.parseNonNegative (w.header.Get "Content-Length".data) with
      | some n => { w with wroteHeader := some (code, w.header), contentLength := some n }
      | none =>
        { w with wroteHeader := some (code, w.header),
                 header := w.header.Del "Content-Length".data }

/-- The status fixed by `WriteHeader` allows a body. -/
def bodyAllowed (w : ResponseWriter) : Bool :=
  match w.wroteHeader with
  | some (code, _) => http.bodyAllowedForStatus code
  | none => true

/-- Go `(*response).Write(b)`: sends the header with status 200 if that has not
happened yet; an empty write is accepted and changes nothing more; a write is
refused when the status allows no body (`ErrBodyNotAllowed`) and when it would
take the body past the declared length (`ErrContentLength`), the bytes offered
being counted all the same; otherwise the bytes are accepted. -/
def Write (w : ResponseWriter) (b : GoString) : ResponseWriter :=
  let w1 := w.WriteHeader 200
  if b.length = 0 then w1
  else if !w1.bodyAllowed then w1
  else
    let w2 := { w1 with written := w1.written + b.length }
    match w2.contentLength with
    | some n => if w2.written > n then w2 else { w2 with body := w2.body ++ b }
    | none => { w2 with body := w2.body ++ b }

/-- The effect of one action on the server's response writer. -/
def step (w : ResponseWriter) : Action → ResponseWriter
  | .setHeader k v => { w with header := w.header.Set k v }
  | .delHeader k => { w with header := w.header.Del k }
  | .writeHeader code => w.WriteHeader code
  | .write b => w.Write b
  | .print _ => w
  | .gzipNewWriter => w
  | .gzipWrite _ => w
  | .gzipClose => w
  | .setHeaderIfAbsent k v =>
    if (w.header.find k).isNone then { w with header := w.header.Set k v } else w
  | .setHeaderIfEmpty guard k v =>
    if w.header.Get guard = [] then { w with header := w.header.Set k v } else w

/-- The effect of a list of actions. -/
def steps (w : ResponseWriter) (as : List Action) : ResponseWriter := as.foldl step w

end ResponseWriter

/-- A response: the status, the headers of the handler at the time the status was
fixed, and the body bytes the response writer accepted. -/
structure Response where
  status : Nat
  header : Header
  body : GoString
deriving DecidableEq, Repr

/-- The response sent once the handler is done: if the handler never wrote the
header, the server sends status 200 with the headers set so far. -/
def ResponseWriter.response (w : ResponseWriter) : Response :=
  match w.wroteHeader with
  | some (code, h) => ⟨code, h, w.body⟩
  | none => ⟨200, w.header, w.body⟩

/-- The response a handler produces for a request on a fresh response writer. -/
def respond (h : HandlerFunc) (r : Request) : Response :=
  (ResponseWriter.fresh.steps (h r).actions).response

/-- What a run prints on standard output. -/
def stdoutOf : List Action → List GoString
  | [] => []
  | .print s :: as => s :: stdoutOf as
  | _ :: as => stdoutOf as

/-! ## net/http.ServeFile -/

namespace http

/-- Go `http.Error(w, error, code)`. -/
def Error (text : GoString) (code : Nat) : Run :=
  ⟨[.delHeader "Content-Length".data,
    .setHeader "Content-Type".data "text/plain; charset=utf-8".data,
    .setHeader "X-Content-Type-Options".data "nosniff".data,
    .writeHeader code,
    .write (text ++ ['\n'])], .returned⟩

/-- Go `serveError` of net/http/fs.go: the headers meant for a successful response
are cleared, then `Error` answers. -/
def serveError (text : GoString) (code : Nat) : Run :=
  ⟨[.delHeader "Cache-Control".data, .delHeader "Content-Encoding".data,
    .delHeader "Etag".data, .delHeader "Last-Modified".data] ++ (Error text code).actions,
    .returned⟩

/-- Go `isSlashRune` of net/http/fs.go. -/
def isSlashRune (c : Char) : Bool := c == '/' || c == '\\'

/-- Go `containsDotDot` of net/http/fs.go: some field of `v` between slashes or
backslashes is exactly `..`. -/
def containsDotDot (v : GoString) : Bool :=
  if !strings.Contains v ['.', '.'] then false
  else (strings.FieldsFunc v isSlashRune).any (fun ent => ent == ['.', '.'])

/-- Go `localRedirect` of net/http/fs.go: status 301 with a relative `Location`. -/
def localRedirect (r : Request) (newPath : GoString) : Run :=
  let newPath := if r.URL.RawQuery ≠ [] then newPath ++ ['?'] ++ r.URL.RawQuery else newPath
  ⟨[.setHeader "Location".data newPath, .writeHeader 301], .returned⟩

/-- Go `serveFile` of net/http/fs.go, called with `redirect = false`. A request whose
URL path ends in `/index.html` is redirected to `./` before anything is opened. What
follows that check (open `file` in `Dir(dir)`, directories, `serveContent`)
depends on the file system and is the parameter `openAndServe`; `http.openAndServe`
below is what net/http does there. -/
def serveFile (openAndServe : Request → GoString → GoString → Run)
    (r : Request) (dir file : GoString) : Run :=
  if strings.HasSuffix r.URL.Path "/index.html".data then localRedirect r "./".data
  else openAndServe r dir file

/-- Go `http.ServeFile(w, r, name)` of net/http/fs.go, as in the current Go
releases: a request whose URL path has a `..` element is answered 400; otherwise
`name` is split and handed to `serveFile`. -/
def ServeFile (openAndServe : Request → GoString → GoString → Run)
    (r : Request) (name : GoString) : Run :=
  if containsDotDot r.URL.Path then serveError "invalid URL path".data 400
  else serveFile openAndServe r (filepath.Split name).1 (filepath.Split name).2

/-- The request headers that make `serveContent` answer conditionally or partially. -/
def conditionalKeys : List GoString :=
  ["If-Match".data, "If-None-Match".data, "If-Modified-Since".data,
   "If-Unmodified-Since".data, "If-Range".data, "Range".data]

/-- The request carries no conditional and no range header. -/
def noPreconditions (r : Request) : Bool :=
  conditionalKeys.all (fun k => (Header.find r.Header k).isNone)

/-- What `fs.Open(name)` followed by `Stat` tells `serveFile`: a regular file with
its content, its modification time as `Last-Modified` writes it (empty for the
zero time) and the content type `serveContent` finds for it (by the extension of
its name, else by its first bytes); a directory; or one of the three kinds of
error `toHTTPError` tells apart. -/
inductive File where
  | regular (content modtime ctype : GoString)
  | directory
  | notExist
  | permission
  | failure
deriving DecidableEq, Repr

/-- The parts of `serveFile` that are left open: the file system `Dir(dir)` with its
`Open(file)`, what is done with a directory, and what `serveContent` does with a
request that carries a conditional or a range header. -/
structure FileServer where
  Dir : GoString → GoString → File
  serveDirectory : Request → GoString → GoString → Run
  serveConditional : Request → GoString → GoString → GoString → Run

/-- Go `serveContent` of net/http/fs.go for a regular file. Without conditional and
range headers: `Last-Modified` unless the time is zero, `Content-Type` unless the
key is there, `Accept-Ranges`, `Content-Length` unless a `Content-Encoding` is set,
status 200, and the whole content (`io.CopyN`) unless the method is `HEAD`. -/
def serveContent (fsrv : FileServer) (r : Request) (content modtime ctype : GoString) : Run :=
  if noPreconditions r then
    ⟨(if modtime ≠ [] then [Action.setHeader "Last-Modified".data modtime] else []) ++
      [.setHeaderIfAbsent "Content-Type".data ctype,
       .setHeader "Accept-Ranges".data "bytes".data,
       .setHeaderIfEmpty "Content-Encoding".data "Content-Length".data
         (strconv.FormatInt content.length),
       .writeHeader 200] ++
      (if r.Method ≠ "HEAD".data then [Action.write content] else []),
     .returned⟩
  else fsrv.serveConditional r content modtime ctype

/-- The rest of Go `serveFile` (net/http/fs.go, `redirect = false`) after the check
for `/index.html`: `fs.Open(name)` and `Stat`; an error is answered through
`toHTTPError` and `serveError`; a regular file goes to `serveContent`. -/
def openAndServe (fsrv : FileServer) (r : Request) (dir file : GoString) : Run :=
  match fsrv.Dir dir file with
  | .regular content modtime ctype => serveContent fsrv r content modtime ctype
  | .directory => fsrv.serveDirectory r dir file
  | .notExist => serveError "404 page not found".data 404
  | .permission => serveError "403 Forbidden".data 403
  | .failure => serveError "500 Internal Server Error".data 500

end http

/-! ## compress/gzip, as used by the program -/

/-- The operations of Go `compress/gzip` the program relies on, over an abstract
compressor state: `NewWriter` is the state of a fresh `gzip.Writer`; `Write`
gives the new state and the compressed bytes pushed to the underlying writer;
`Close` gives the bytes pushed when the writer is closed; `gunzip` is the
decompression of a complete stream. What is pushed during one call is taken as
one write on the underlying writer. -/
structure GzipCodec (σ : Type) where
  NewWriter : σ
  Write : σ → GoString → σ × GoString
  Close : σ → GoString
  gunzip : GoString → Option GoString

namespace GzipCodec

end GzipCodec

/-- A two-byte-framed codec that stores the data as it is: the first output is
preceded by the gzip magic bytes. The state records whether they were written. -/
def storedCodec : GzipCodec Bool where
  NewWriter := false
  Write := fun wroteMagic b => (true, if wroteMagic then b else [Char.ofNat 31, Char.ofNat 139] ++ b)
  Close := fun wroteMagic => if wroteMagic then [] else [Char.ofNat 31, Char.ofNat 139]
  gunzip := fun s =>
    match s with
    | m1 :: m2 :: data =>
      if m1 = Char.ofNat 31 ∧ m2 = Char.ofNat 139 then some data else none
    | _ => none

/-! ## serve.go -/

/-- The calls a handler makes on a `gzipResponseWriter` whose `Writer` is a
`gzip.Writer` in state `s` over the response writer `w`, seen from `w`.
`Write(b)` is `w.Writer.Write(b)`: the compressor takes `b` and pushes compressed
bytes to `w`; every other method is the embedded `http.ResponseWriter` one. The
result is the final compressor state and the actions on `w`. The writes listed
are those made as long as `w` accepts them: once `w` has refused one, a
`gzip.Writer` keeps the error and writes no more, and `w` accepts no further
byte either way (`refused_stays_refused`), so what `w` ends up with is the same. -/
def gzipResponseWriter {σ : Type} (c : GzipCodec σ) : σ → List Action → σ × List Action
  | s, [] => (s, [])
  | s, .write b :: as =>
    let rest := gzipResponseWriter c (c.Write s b).1 as
    (rest.1, .gzipWrite b :: .write (c.Write s b).2 :: rest.2)
  | s, a :: as =>
    let rest := gzipResponseWriter c s as
    (rest.1, a :: rest.2)

/-- Go `makeGzipHandler` (serve.go). The deferred `gz.Close()` runs when the
invocation of `fn` ends, whether by return or by panic, after which the panic,
if any, continues. -/
def makeGzipHandler {σ : Type} (gzip : GzipCodec σ) (fn : HandlerFunc) : HandlerFunc :=
  fun r =>
    if !strings.Contains (r.Header.Get "Accept-Encoding".data) "gzip".data then
      fn r
    else
      let inner := gzipResponseWriter gzip gzip.NewWriter (fn r).actions
      ⟨[.setHeader "Content-Encoding".data "gzip".data, .gzipNewWriter] ++ inner.2
          ++ [.gzipClose, .write (gzip.Close inner.1)],
        (fn r).exit⟩

/-- The local `filename` of `fileHandler` (serve.go): the default document replaces
the request path `/` only; the result is joined with the root directory. -/
def filename (fileDirectory urlPath : GoString) : GoString :=
  let path := if urlPath ≠ ['/'] then urlPath else "index.html".data
  filepath.Join [fileDirectory, path]

/-- Go `fileHandler` (serve.go), with the package variables `fileDirectory` and
`*showLog` and the primitive `http.ServeFile` as parameters. -/
def fileHandler (fileDirectory : GoString) (showLog : Bool)
    (ServeFile : Request → GoString → Run) : HandlerFunc :=
  fun r =>
    let name := filename fileDirectory r.URL.Path
    let logged : List Action :=
      if showLog then
        [.print ("URL ".data ++ r.URL.Path ++ " -> ".data ++ name ++ ['\n'])]
      else []
    ⟨logged ++ (ServeFile r name).actions, (ServeFile r name).exit⟩

/-- The command line after `flag.Parse()`: the flag variables and `flag.Args()`. -/
structure Flags where
  showHelp : Bool
  showLog : Bool
  useGzip : Bool
  port : GoString
  args : List GoString

/-- The `http.Server` built by `serveHTTP`; `ReadTimeout` in seconds. -/
structure Server where
  Addr : GoString
  ReadTimeout : Nat
deriving DecidableEq, Repr

/-- What `serveHTTP` sets up before it blocks: the server, the pattern it registers a
handler for, whether that handler is `makeGzipHandler(fileHandler)` rather than
`fileHandler`, and the root directory the handler serves. -/
structure Served where
  server : Server
  pattern : GoString
  gzipWrapped : Bool
  fileDirectory : GoString
deriving DecidableEq, Repr

/-- What the process has done when `main` is over. -/
structure Outcome where
  stdout : List GoString
  logged : List GoString
  served : Option Served
  exitCode : Nat
deriving DecidableEq, Repr

/-- Go `helpMessage` (serve.go). -/
def helpMessage : GoString :=
  ("\nServes a directory (or present working directory) via HTTP on the given port.\n\n" ++
   "Usage: serve [options] [directory]\n\n" ++
   "      -port       =string   Address for HTTP communication.\n" ++
   "      -gzip       (flag)    Use gzip compression for responses.\n" ++
   "      -log        (flag)    Run in verbose mode.\n" ++
   "  -h, -help       (flag)    Show help message\n").data

/-- The handler `serveHTTP` registers for the pattern `/`. -/
def rootHandler {σ : Type} (gzip : GzipCodec σ) (ServeFile : Request → GoString → Run)
    (showLog : Bool) (s : Served) : HandlerFunc :=
  if s.gzipWrapped then makeGzipHandler gzip (fileHandler s.fileDirectory showLog ServeFile)
  else fileHandler s.fileDirectory showLog ServeFile

/-- Go `serveHTTP` (serve.go). `ListenAndServe` stands for `src.ListenAndServe()`,
which blocks while serving and returns an error when it stops or cannot start;
the statement `src.ListenAndServe()` drops that error. The result is what was
printed and what was set up. -/
def serveHTTP {ε : Type} (fileDirectory : GoString) (f : Flags) (ListenAndServe : Server → ε) :
    List GoString × Served :=
  let line1 := "Web server listening at ".data ++ f.port ++ " ...\n".data
  let src : Server := ⟨f.port, 3600⟩
  let setup : List GoString × Served :=
    if f.useGzip then
      ([line1, "HTTP server will return gzip values if permitted by browser.\n".data],
        ⟨src, ['/'], true, fileDirectory⟩)
    else ([line1], ⟨src, ['/'], false, fileDirectory⟩)
  let _err := ListenAndServe src
  setup

/-- The value of the package variable `fileDirectory` when `serveHTTP` runs: the
first positional argument if there is one, else the working directory found by
`currentDir()`. -/
def fileDirectory (currentDir : GoString) (f : Flags) : GoString :=
  match f.args with
  | dir :: _ => dir
  | [] => currentDir

/-- Go `main` (serve.go) after `flag.Parse()`, for a run that no signal interrupts:
with `-h`/`-help` the usage text is printed and the process exits with code 0;
otherwise `serveHTTP` runs and, when it returns, `main` returns, which ends the
process with code 0. Nothing in `main` or `serveHTTP` writes to the log. -/
def main {ε : Type} (currentDir : GoString) (f : Flags) (ListenAndServe : Server → ε) :
    Outcome :=
  if f.showHelp then ⟨[helpMessage], [], none, 0⟩
  else
    let s := serveHTTP (fileDirectory currentDir f) f ListenAndServe
    ⟨s.1, [], some s.2, 0⟩

/-! ## Path elements and containment -/

/-- The elements of a slash-separated path: the pieces between the separators. -/
def elements (p : GoString) : List GoString := strings.splitBy os.IsPathSeparator p

/-- Some element of the path is exactly `..`. -/
def hasDotDot (p : GoString) : Bool := decide (['.', '.'] ∈ elements p)

/-- The elements that follow the separator at the head of the unread input. -/
def elementsAfter : GoString → List GoString
  | [] => []
  | _ :: y => elements y

/-- The rest of `s` after the leading `p`, if `s` starts with `p`. -/
def stripLeading : GoString → GoString → Option GoString
  | [], s => some s
  | _ :: _, [] => none
  | a :: p, b :: s => if a = b then stripLeading p s else none

/-- The path `path` relative to the directory `root` (a cleaned path), when `path`
lies under `root` textually: below `/` every absolute path, below `.` every
relative path, below any other root what follows the root and a separator. -/
def relativeTo (root path : GoString) : Option GoString :=
  if root = ['/'] then
    match path with
    | [] => none
    | c :: rel => if c = '/' then some rel else none
  else if root = ['.'] then
    match path with
    | [] => none
    | c :: rel => if c = '/' then none else some (c :: rel)
  else stripLeading (root ++ ['/']) path

/-- The path is the directory `root` itself or names something beneath it: the
path relative to `root` exists and climbs nowhere (no `..` element). -/
def beneath (root path : GoString) : Bool :=
  path == root ||
    match relativeTo root path with
    | some rel => !hasDotDot rel
    | none => false

namespace filepath

/-- The test `rooted && out.w != 1 || !rooted && out.w != 0` of `Clean`. -/
def needsSep (rooted : Bool) (out : GoString) : Bool :=
  (rooted && out.length != 1) || (!rooted && out.length != 0)

/-- The loop of `Clean` run with exactly as many iterations allowed as there are
unread bytes. -/
def runLoop (rooted : Bool) (rest : GoString) (b : lazybuf) : lazybuf :=
  cleanLoop rooted rest.length rest b

/-- The invariant of the loop of `Clean` for a rooted path: the output starts with
the leading slash and `dotdot` stays 1. -/
def RootedInv (b : lazybuf) : Prop := b.dotdot = 1 ∧ ∃ tl, b.out = '/' :: tl

/-- What the loop of `Clean` appends to `out` for an input without a `..` element:
nothing, or a separator and a relative path, or (when no separator is due) a
relative path. -/
def Ext (rooted : Bool) (out tail : GoString) : Prop :=
  tail = [] ∨
  (needsSep rooted out = true ∧ ∃ rel, tail = '/' :: rel ∧ hasDotDot rel = false) ∨
  (needsSep rooted out = false ∧ tail ≠ [] ∧ tail.head? ≠ some '/' ∧ hasDotDot tail = false)

end filepath

/-! ## Auxiliary notions for the statements -/

/-- The response writer has refused a write for good: its status allows no body, or
more bytes were offered than the declared length. -/
def Refusing (w : ResponseWriter) : Prop :=
  w.wroteHeader ≠ none ∧
    (w.bodyAllowed = false ∨ ∃ n, w.contentLength = some n ∧ w.written > n)

/-- The regular files of a file system: the content stored under a name. -/
abbrev FileSystem := GoString → Option GoString

/-- A plain instance of the open-and-serve step: the bytes of a regular file with
status 200, and 404 for every other name. -/
def plainServe (fs : FileSystem) (_r : Request) (dir file : GoString) : Run :=
  match fs (dir ++ file) with
  | some bytes => ⟨[.writeHeader 200, .write bytes], .returned⟩
  | none => http.Error "404 page not found".data 404

/-- A file system with the two files of the scenario, under the root `/srv`. -/
def demoFS : FileSystem := fun name =>
  if name = "/srv/index.html".data then some "hello".data
  else if name = "/srv/a/b.txt".data then some "world".data
  else none

/-- A `GET` request for a URL path, with the given value of `Accept-Encoding`
(no such header when the value is empty). -/
def get (urlPath acceptEncoding : GoString) : Request :=
  ⟨"GET".data, ⟨urlPath, []⟩,
    if acceptEncoding = [] then [] else [("Accept-Encoding".data, [acceptEncoding])]⟩

/-- A handler that writes `hel` and `lo` in two calls after setting a content type. -/
def helloHandler : HandlerFunc := fun _ =>
  ⟨[.setHeader "Content-Type".data "text/plain".data, .write "hel".data, .write "lo".data],
    .returned⟩

/-- A handler that panics after a first write. -/
def panickingHandler : HandlerFunc := fun _ => ⟨[.write "par".data], .panicked⟩

/-- A `Dir` over three regular files: `Dir(dir).Open(file)` finds the file named by
the join of `dir` (the working directory if empty) and `file`. The third file has
backslashes in its name. -/
def demoDir (dir file : GoString) : http.File :=
  let name := filepath.Join [if dir = [] then ['.'] else dir, file]
  if name = "/srv/index.html".data then
    .regular "hello".data "Mon, 02 Jan 2006 15:04:05 GMT".data "text/html; charset=utf-8".data
  else if name = "/srv/a/b.txt".data then
    .regular "world".data "Mon, 02 Jan 2006 15:04:05 GMT".data "text/plain; charset=utf-8".data
  else if name = "/srv/a\\..\\b.txt".data then
    .regular "slash".data "Mon, 02 Jan 2006 15:04:05 GMT".data "text/plain; charset=utf-8".data
  else .notExist

/-- A file server over `demoDir`; directories and conditional requests, which it
does not have to deal with below, are answered 501. -/
def demoServer : http.FileServer :=
  ⟨demoDir, fun _ _ _ => ⟨[.writeHeader 501], .returned⟩,
    fun _ _ _ _ => ⟨[.writeHeader 501], .returned⟩⟩

/-- A `HEAD` request for a URL path, without headers. -/
def head (urlPath : GoString) : Request := ⟨"HEAD".data, ⟨urlPath, []⟩, []⟩

/-! ## Lemmas about `filepath.Clean` -/

namespace filepath

theorem length_dropWhile_le (p : Char → Bool) (l : List Char) :
    (l.dropWhile p).length ≤ l.length := by
  induction l with
  | nil => simp
  | cons a l ih =>
    simp only [List.dropWhile_cons]
    split
    · simp only [List.length_cons]; omega
    · simp

/-- The iteration bound of `cleanLoop` is never what stops the loop: every bound
that is at least the number of unread bytes gives the same final state. -/
theorem cleanLoop_fuel (rooted : Bool) :
    ∀ (fuel : Nat) (rest : GoString) (b : lazybuf) (fuel2 : Nat),
      rest.length ≤ fuel → rest.length ≤ fuel2 →
      cleanLoop rooted fuel rest b = cleanLoop rooted fuel2 rest b := by
  intro fuel
  induction fuel with
  | zero =>
    intro rest b fuel2 h1 _
    have : rest = [] := List.length_eq_zero.mp (Nat.le_zero.mp h1)
    subst this
    cases fuel2 <;> simp [cleanLoop]
  | succ n ih =>
    intro rest b fuel2 h1 h2
    cases rest with
    | nil => cases fuel2 <;> simp [cleanLoop]
    | cons c rest =>
      cases fuel2 with
      | zero => simp at h2
      | succ m =>
        simp only [List.length_cons, Nat.add_le_add_iff_right] at h1 h2
        have ht : rest.tail.length ≤ rest.length := by simp
        have hd := length_dropWhile_le (fun x => !os.IsPathSeparator x) rest
        simp only [cleanLoop]
        split
        · exact ih _ _ _ h1 h2
        · split
          · exact ih _ _ _ h1 h2
          · split
            · split
              · exact ih _ _ _ (by omega) (by omega)
              · split
                · exact ih _ _ _ (by omega) (by omega)
                · exact ih _ _ _ (by omega) (by omega)
            · rename_i hc _ _
              have : (c :: rest).dropWhile (fun x => !os.IsPathSeparator x)
                  = rest.dropWhile (fun x => !os.IsPathSeparator x) := by
                simp [List.dropWhile_cons, hc]
              rw [this]
              exact ih _ _ _ (by omega) (by omega)


theorem runLoop_nil (rooted : Bool) (b : lazybuf) : runLoop rooted [] b = b := by
  simp [runLoop, cleanLoop]

/-- One iteration of the loop of `Clean`, with the iteration bound out of the way. -/
theorem runLoop_cons (rooted : Bool) (c : Char) (rest : GoString) (b : lazybuf) :
    runLoop rooted (c :: rest) b =
      if os.IsPathSeparator c then runLoop rooted rest b
      else if c == '.' && elemEnd rest then runLoop rooted rest b
      else if c == '.' && rest.head? == some '.' && elemEnd rest.tail then
        if b.out.length > b.dotdot then
          runLoop rooted rest.tail ⟨backtrack b.dotdot b.out, b.dotdot⟩
        else if !rooted then
          runLoop rooted rest.tail
            ⟨(if b.out.length > 0 then b.out ++ ['/'] else b.out) ++ ['.', '.'],
             ((if b.out.length > 0 then b.out ++ ['/'] else b.out) ++ ['.', '.']).length⟩
        else runLoop rooted rest.tail b
      else
        runLoop rooted (rest.dropWhile (fun x => !os.IsPathSeparator x))
          ⟨(if (rooted && b.out.length != 1) || (!rooted && b.out.length != 0) then b.out ++ ['/']
            else b.out) ++ c :: rest.takeWhile (fun x => !os.IsPathSeparator x), b.dotdot⟩ := by
  have ht : rest.tail.length ≤ rest.length := by simp
  have hd := length_dropWhile_le (fun x => !os.IsPathSeparator x) rest
  simp only [runLoop, List.length_cons, cleanLoop]
  split
  · rfl
  · split
    · rfl
    · split
      · split
        · exact cleanLoop_fuel _ _ _ _ _ ht (Nat.le_refl _)
        · split
          · exact cleanLoop_fuel _ _ _ _ _ ht (Nat.le_refl _)
          · exact cleanLoop_fuel _ _ _ _ _ ht (Nat.le_refl _)
      · rename_i hc _ _
        have h1 : (c :: rest).dropWhile (fun x => !os.IsPathSeparator x)
            = rest.dropWhile (fun x => !os.IsPathSeparator x) := by
          simp [List.dropWhile_cons, hc]
        have h2 : (c :: rest).takeWhile (fun x => !os.IsPathSeparator x)
            = c :: rest.takeWhile (fun x => !os.IsPathSeparator x) := by
          simp [List.takeWhile_cons, hc]
        rw [h1, h2]
        exact cleanLoop_fuel _ _ _ _ _ hd (Nat.le_refl _)

theorem clean_cons (c : Char) (rest : GoString) :
    Clean (c :: rest) =
      if os.IsPathSeparator c then finish (runLoop true rest ⟨['/'], 1⟩)
      else finish (runLoop false (c :: rest) ⟨[], 0⟩) := rfl

theorem elemEnd_iff (t : GoString) : elemEnd t = true ↔ t = [] ∨ ∃ r, t = '/' :: r := by
  cases t with
  | nil => simp [elemEnd]
  | cons c r => simp [elemEnd, os.IsPathSeparator]

theorem dropWhile_append_elemEnd (x t : GoString) (ht : elemEnd t = true) :
    (x ++ t).dropWhile (fun c => !os.IsPathSeparator c)
      = x.dropWhile (fun c => !os.IsPathSeparator c) ++ t := by
  induction x with
  | nil =>
    cases t with
    | nil => rfl
    | cons c r => simp [elemEnd] at ht; simp [List.dropWhile_cons, ht]
  | cons a x ih =>
    simp only [List.cons_append, List.dropWhile_cons]
    split
    · exact ih
    · rfl

theorem takeWhile_append_elemEnd (x t : GoString) (ht : elemEnd t = true) :
    (x ++ t).takeWhile (fun c => !os.IsPathSeparator c)
      = x.takeWhile (fun c => !os.IsPathSeparator c) := by
  induction x with
  | nil =>
    cases t with
    | nil => rfl
    | cons c r => simp [elemEnd] at ht; simp [List.takeWhile_cons, ht]
  | cons a x ih =>
    simp only [List.cons_append, List.takeWhile_cons]
    split
    · rw [ih]
    · rfl

theorem elemEnd_append (x t : GoString) (ht : elemEnd t = true) :
    elemEnd (x ++ t) = elemEnd x := by
  cases x with
  | nil => rw [List.nil_append, ht]; rfl
  | cons a x => rfl

/-- Reading `x` followed by an input that starts a new element (a separator or the
end) is reading `x` to its end and then going on from the state reached. -/
theorem runLoop_append (rooted : Bool) :
    ∀ (n : Nat) (x t : GoString) (b : lazybuf), x.length ≤ n → elemEnd t = true →
      runLoop rooted (x ++ t) b = runLoop rooted t (runLoop rooted x b) := by
  intro n
  induction n with
  | zero =>
    intro x t b hx _
    have : x = [] := List.length_eq_zero.mp (Nat.le_zero.mp hx)
    subst this
    simp [runLoop_nil]
  | succ n ih =>
    intro x t b hx ht
    cases x with
    | nil => simp [runLoop_nil]
    | cons c x =>
      simp only [List.length_cons, Nat.add_le_add_iff_right] at hx
      have hd := length_dropWhile_le (fun x => !os.IsPathSeparator x) x
      have hxt : x.tail.length ≤ x.length := by simp
      rw [List.cons_append, runLoop_cons, runLoop_cons rooted c x]
      by_cases h1 : os.IsPathSeparator c = true
      · simp only [if_pos h1]
        exact ih _ _ _ hx ht
      · simp only [if_neg h1]
        rw [elemEnd_append x t ht]
        by_cases h2 : (c == '.' && elemEnd x) = true
        · simp only [if_pos h2]
          exact ih _ _ _ hx ht
        · simp only [if_neg h2]
          cases x with
          | nil =>
            -- then elemEnd [] = true, so c is not a dot
            have hc : (c == '.') = false := by simpa [elemEnd] using h2
            simp only [hc, Bool.false_and, if_false, Bool.false_eq_true, List.nil_append, ite_false,
              List.dropWhile_nil, List.takeWhile_nil, runLoop_nil]
            have e4 := dropWhile_append_elemEnd [] t ht
            have e5 := takeWhile_append_elemEnd [] t ht
            simp only [List.nil_append, List.dropWhile_nil, List.takeWhile_nil] at e4 e5
            rw [e4, e5]
          | cons d x =>
            have e1 : ((d :: x) ++ t).head? = (d :: x).head? := rfl
            have e2 : ((d :: x) ++ t).tail = x ++ t := rfl
            have e3 : (d :: x).tail = x := rfl
            rw [e1, e2, e3, elemEnd_append x t ht, dropWhile_append_elemEnd _ _ ht,
              takeWhile_append_elemEnd _ _ ht]
            by_cases h3 : (c == '.' && (d :: x).head? == some '.' && elemEnd x) = true
            · simp only [if_pos h3]
              split
              · exact ih _ _ _ (by simp at hx; omega) ht
              · split
                · exact ih _ _ _ (by simp at hx; omega) ht
                · exact ih _ _ _ (by simp at hx; omega) ht
            · simp only [if_neg h3]
              exact ih _ _ _ (by omega) ht

end filepath


theorem splitBy_ne_nil (p : Char → Bool) (s : GoString) : strings.splitBy p s ≠ [] := by
  cases s with
  | nil => simp [strings.splitBy]
  | cons c s =>
    simp only [strings.splitBy]
    split
    · simp
    · split <;> simp

/-- The first element of a path is what precedes its first separator; the others
are the elements of what follows that separator. -/
theorem elements_eq (x : GoString) :
    elements x = x.takeWhile (fun c => !os.IsPathSeparator c) ::
      elementsAfter (x.dropWhile (fun c => !os.IsPathSeparator c)) := by
  induction x with
  | nil => simp [elements, strings.splitBy, elementsAfter]
  | cons c x ih =>
    by_cases hc : os.IsPathSeparator c = true
    · simp [elements, strings.splitBy, hc, List.takeWhile_cons, List.dropWhile_cons, elementsAfter]
    · simp only [elements] at ih
      simp only [elements, strings.splitBy, hc, List.takeWhile_cons, List.dropWhile_cons]
      rw [ih]
      simp

theorem elements_sep_cons (c : Char) (x : GoString) (hc : os.IsPathSeparator c = true) :
    elements (c :: x) = [] :: elements x := by
  simp [elements, strings.splitBy, hc]

theorem head_dropWhile_sep (x : GoString) (d : Char) (y : GoString)
    (h : x.dropWhile (fun c => !os.IsPathSeparator c) = d :: y) :
    os.IsPathSeparator d = true := by
  have := List.head_dropWhile_not (fun c => !os.IsPathSeparator c) x (by rw [h]; simp)
  simp only [h, List.head_cons] at this
  simpa using this

theorem hasDotDot_nil : hasDotDot [] = false := by decide

theorem hasDotDot_sep_cons (c : Char) (x : GoString) (hc : os.IsPathSeparator c = true) :
    hasDotDot (c :: x) = hasDotDot x := by
  simp [hasDotDot, elements_sep_cons c x hc]

theorem hasDotDot_dropWhile (x : GoString) (h : hasDotDot x = false) :
    hasDotDot (x.dropWhile (fun c => !os.IsPathSeparator c)) = false := by
  have hx := elements_eq x
  cases hd : x.dropWhile (fun c => !os.IsPathSeparator c) with
  | nil => exact hasDotDot_nil
  | cons d y =>
    rw [hd] at hx
    simp only [elementsAfter] at hx
    rw [hasDotDot_sep_cons d y (head_dropWhile_sep x d y hd)]
    simp only [hasDotDot, decide_eq_false_iff_not] at h ⊢
    intro hm
    apply h
    rw [hx]
    exact List.mem_cons_of_mem _ hm


namespace filepath

theorem takeWhile_of_elemEnd (t : GoString) (h : elemEnd t = true) :
    t.takeWhile (fun c => !os.IsPathSeparator c) = [] := by
  cases t with
  | nil => rfl
  | cons c r => simp [elemEnd] at h; simp [List.takeWhile_cons, h]

theorem dropWhile_of_elemEnd (t : GoString) (h : elemEnd t = true) :
    t.dropWhile (fun c => !os.IsPathSeparator c) = t := by
  cases t with
  | nil => rfl
  | cons c r => simp [elemEnd] at h; simp [List.dropWhile_cons, h]

theorem elemEnd_of_takeWhile (t : GoString)
    (h : t.takeWhile (fun c => !os.IsPathSeparator c) = []) : elemEnd t = true := by
  cases t with
  | nil => rfl
  | cons c r =>
    by_cases hc : os.IsPathSeparator c = true
    · simpa [elemEnd] using hc
    · simp [List.takeWhile_cons, hc] at h

theorem elemEnd_dropWhile (x : GoString) :
    elemEnd (x.dropWhile (fun c => !os.IsPathSeparator c)) = true := by
  cases hd : x.dropWhile (fun c => !os.IsPathSeparator c) with
  | nil => rfl
  | cons d y => simpa [elemEnd] using head_dropWhile_sep x d y hd

end filepath

open filepath

theorem elements_takeWhile_append (z t : GoString) (ht : elemEnd t = true) :
    elements (z.takeWhile (fun c => !os.IsPathSeparator c) ++ t) =
      z.takeWhile (fun c => !os.IsPathSeparator c) :: elementsAfter t := by
  induction z with
  | nil =>
    rw [List.takeWhile_nil, List.nil_append, elements_eq, takeWhile_of_elemEnd t ht,
      dropWhile_of_elemEnd t ht]
  | cons a z ih =>
    by_cases ha : os.IsPathSeparator a = true
    · have : (a :: z).takeWhile (fun c => !os.IsPathSeparator c) = [] := by
        simp [List.takeWhile_cons, ha]
      rw [this, List.nil_append, elements_eq, takeWhile_of_elemEnd t ht,
        dropWhile_of_elemEnd t ht]
    · have : (a :: z).takeWhile (fun c => !os.IsPathSeparator c)
          = a :: z.takeWhile (fun c => !os.IsPathSeparator c) := by
        simp [List.takeWhile_cons, ha]
      rw [this, List.cons_append]
      simp only [elements] at ih ⊢
      simp only [strings.splitBy, ha]
      rw [ih]
      simp

theorem dotdot_of_elem (c : Char) (rest : GoString)
    (h : c :: rest.takeWhile (fun c => !os.IsPathSeparator c) = ['.', '.']) :
    (c == '.' && rest.head? == some '.' && elemEnd rest.tail) = true := by
  cases rest with
  | nil => simp at h
  | cons d r =>
    by_cases hd : os.IsPathSeparator d = true
    · simp [List.takeWhile_cons, hd] at h
    · simp only [List.takeWhile_cons, hd] at h
      simp only [Bool.not_eq_true] at hd
      simp only [hd, Bool.not_false, if_true, List.cons.injEq, and_true] at h
      obtain ⟨h1, h2, h3⟩ := h
      have := elemEnd_of_takeWhile r h3
      simp [h1, h2, this]

/-- On an input without a `..` element the loop of `Clean` only appends. -/
theorem runLoop_noDotDot (rooted : Bool) :
    ∀ (n : Nat) (p : GoString) (b : lazybuf), p.length ≤ n → hasDotDot p = false →
      ∃ tail, (runLoop rooted p b).out = b.out ++ tail ∧ Ext rooted b.out tail := by
  intro n
  induction n with
  | zero =>
    intro p b hp _
    have : p = [] := List.length_eq_zero.mp (Nat.le_zero.mp hp)
    subst this
    exact ⟨[], by simp [runLoop_nil], Or.inl rfl⟩
  | succ n ih =>
    intro p b hp hdd
    cases p with
    | nil => exact ⟨[], by simp [runLoop_nil], Or.inl rfl⟩
    | cons c rest =>
      simp only [List.length_cons, Nat.add_le_add_iff_right] at hp
      rw [runLoop_cons]
      by_cases h1 : os.IsPathSeparator c = true
      · simp only [if_pos h1]
        exact ih rest b hp (by rw [← hasDotDot_sep_cons c rest h1]; exact hdd)
      · simp only [if_neg h1]
        have hdrop : (c :: rest).dropWhile (fun c => !os.IsPathSeparator c)
            = rest.dropWhile (fun c => !os.IsPathSeparator c) := by
          simp [List.dropWhile_cons, h1]
        have htake : (c :: rest).takeWhile (fun c => !os.IsPathSeparator c)
            = c :: rest.takeWhile (fun c => !os.IsPathSeparator c) := by
          simp [List.takeWhile_cons, h1]
        have hdd' := hasDotDot_dropWhile (c :: rest) hdd
        rw [hdrop] at hdd'
        by_cases h2 : (c == '.' && elemEnd rest) = true
        · simp only [if_pos h2]
          have he : elemEnd rest = true := by
            simp only [Bool.and_eq_true] at h2; exact h2.2
          rw [dropWhile_of_elemEnd rest he] at hdd'
          exact ih rest b hp hdd'
        · simp only [if_neg h2]
          by_cases h3 : (c == '.' && rest.head? == some '.' && elemEnd rest.tail) = true
          · exfalso
            simp only [Bool.and_eq_true, beq_iff_eq] at h3
            obtain ⟨⟨hc, hh⟩, he⟩ := h3
            cases rest with
            | nil => simp at hh
            | cons d r =>
              simp only [List.head?_cons, Option.some.injEq] at hh
              simp only [List.tail_cons] at he
              subst hc; subst hh
              have hx := elements_eq ('.' :: '.' :: r)
              have ht := takeWhile_of_elemEnd r he
              simp only [hasDotDot, decide_eq_false_iff_not] at hdd
              apply hdd
              rw [hx]
              have : ('.' :: '.' :: r).takeWhile (fun c => !os.IsPathSeparator c) = ['.', '.'] := by
                have e : os.IsPathSeparator '.' = false := by decide
                simp [List.takeWhile_cons, e, ht]
              rw [this]
              exact List.mem_cons_self _ _
          · simp only [if_neg h3]
            have hlen := length_dropWhile_le (fun x => !os.IsPathSeparator x) rest
            obtain ⟨tail1, hout, hext⟩ := ih (rest.dropWhile (fun x => !os.IsPathSeparator x))
              ⟨(if (rooted && b.out.length != 1) || (!rooted && b.out.length != 0) then
                  b.out ++ ['/'] else b.out) ++ c :: rest.takeWhile (fun x => !os.IsPathSeparator x),
                b.dotdot⟩ (by omega) hdd'
            simp only at hout hext
            -- after a real element a separator is always needed
            have hneeds : needsSep rooted
                ((if (rooted && b.out.length != 1) || (!rooted && b.out.length != 0) then
                  b.out ++ ['/'] else b.out) ++ c :: rest.takeWhile (fun x => !os.IsPathSeparator x))
                = true := by
              cases rooted <;> by_cases hl : b.out.length = 1 <;>
                by_cases hl0 : b.out.length = 0 <;>
                simp [needsSep, hl, hl0]
              all_goals omega
            have hend : elemEnd tail1 = true := by
              rcases hext with h | ⟨_, rel, h, _⟩ | ⟨h, _⟩
              · subst h; rfl
              · subst h; rfl
              · rw [hneeds] at h; cases h
            have hT : hasDotDot (c :: rest.takeWhile (fun x => !os.IsPathSeparator x) ++ tail1)
                = false := by
              have he := elements_takeWhile_append (c :: rest) tail1 hend
              rw [htake] at he
              simp only [hasDotDot, decide_eq_false_iff_not]
              rw [he]
              intro hm
              rcases List.mem_cons.mp hm with hm | hm
              · exact h3 (dotdot_of_elem c rest hm.symm)
              · rcases hext with h | ⟨_, rel, h, hrel⟩ | ⟨h, _⟩
                · subst h; simp [elementsAfter] at hm
                · subst h
                  simp only [hasDotDot, decide_eq_false_iff_not] at hrel
                  exact hrel hm
                · rw [hneeds] at h; cases h
            by_cases hs : ((rooted && b.out.length != 1) || (!rooted && b.out.length != 0)) = true
            · refine ⟨'/' :: (c :: rest.takeWhile (fun x => !os.IsPathSeparator x) ++ tail1), ?_,
                Or.inr (Or.inl ⟨hs, _, rfl, hT⟩)⟩
              rw [hout, if_pos hs]
              simp
            · refine ⟨c :: rest.takeWhile (fun x => !os.IsPathSeparator x) ++ tail1, ?_,
                Or.inr (Or.inr ⟨by simpa [needsSep] using hs, by simp, ?_, hT⟩)⟩
              · rw [hout, if_neg hs]
                simp
              · simp only [List.cons_append, List.head?_cons, ne_eq, Option.some.injEq]
                intro hc
                subst hc
                exact h1 (by decide)


namespace filepath

theorem backtrackLoop_suffix (dd : Nat) :
    ∀ l : List Char, l.length > dd →
      ∃ pre, l = pre ++ backtrackLoop dd l ∧ dd ≤ (backtrackLoop dd l).length := by
  intro l
  induction l with
  | nil => intro h; simp at h
  | cons c below ih =>
    intro h
    simp only [List.length_cons] at h
    simp only [backtrackLoop]
    split
    · rename_i hc
      simp only [Bool.and_eq_true, decide_eq_true_eq] at hc
      obtain ⟨pre, h1, h2⟩ := ih hc.1
      exact ⟨c :: pre, by rw [List.cons_append, ← h1], h2⟩
    · exact ⟨[c], rfl, by omega⟩

theorem backtrack_rooted (tl : GoString) (h : ('/' :: tl).length > 1) :
    ∃ tl', backtrack 1 ('/' :: tl) = '/' :: tl' := by
  obtain ⟨pre, h1, h2⟩ := backtrackLoop_suffix 1 ('/' :: tl).reverse (by simpa using h)
  have h3 : '/' :: tl = (backtrackLoop 1 ('/' :: tl).reverse).reverse ++ pre.reverse := by
    have := congrArg List.reverse h1
    simpa using this
  unfold backtrack
  cases hb : (backtrackLoop 1 ('/' :: tl).reverse).reverse with
  | nil =>
    have := congrArg List.length hb
    simp only [List.length_reverse, List.length_nil] at this
    omega
  | cons a r =>
    rw [hb] at h3
    simp only [List.cons_append, List.cons.injEq] at h3
    exact ⟨r, by rw [← h3.1]⟩

/-- The loop of `Clean` keeps the leading slash of a rooted path. -/
theorem runLoop_rooted :
    ∀ (n : Nat) (x : GoString) (b : lazybuf), x.length ≤ n → RootedInv b →
      RootedInv (runLoop true x b) := by
  intro n
  induction n with
  | zero =>
    intro x b hx hb
    have : x = [] := List.length_eq_zero.mp (Nat.le_zero.mp hx)
    subst this
    simpa [runLoop_nil] using hb
  | succ n ih =>
    intro x b hx hb
    cases x with
    | nil => simpa [runLoop_nil] using hb
    | cons c rest =>
      simp only [List.length_cons, Nat.add_le_add_iff_right] at hx
      have hd := length_dropWhile_le (fun x => !os.IsPathSeparator x) rest
      have ht : rest.tail.length ≤ rest.length := by simp
      rw [runLoop_cons]
      split
      · exact ih _ _ hx hb
      · split
        · exact ih _ _ hx hb
        · split
          · split
            · rename_i hlen
              obtain ⟨hdd, tl, hout⟩ := hb
              refine ih _ _ (by omega) ⟨hdd, ?_⟩
              simp only
              rw [hdd, hout]
              rw [hdd, hout] at hlen
              exact backtrack_rooted tl hlen
            · split
              · rename_i hr; simp at hr
              · exact ih _ _ (by omega) hb
          · obtain ⟨hdd, tl, hout⟩ := hb
            refine ih _ _ (by omega) ⟨hdd, ?_⟩
            simp only [hout]
            split
            · exact ⟨_, rfl⟩
            · exact ⟨_, rfl⟩

/-- Cleaning `root/p` for a non-empty `root` reads `p` in the state in which
cleaning `root` ends. -/
theorem clean_join (c : Char) (rs p : GoString) :
    Clean (c :: rs) = finish
      (if os.IsPathSeparator c then runLoop true rs ⟨['/'], 1⟩
       else runLoop false (c :: rs) ⟨[], 0⟩) ∧
    Clean (c :: rs ++ '/' :: p) = finish
      (if os.IsPathSeparator c then runLoop true p (runLoop true rs ⟨['/'], 1⟩)
       else runLoop false p (runLoop false (c :: rs) ⟨[], 0⟩)) := by
  have hsep : os.IsPathSeparator '/' = true := by decide
  constructor
  · rw [clean_cons]; split <;> rfl
  · rw [List.cons_append, clean_cons]
    split
    · rw [runLoop_append true rs.length rs ('/' :: p) _ (Nat.le_refl _) rfl, runLoop_cons,
        if_pos hsep]
    · rw [← List.cons_append,
        runLoop_append false (c :: rs).length (c :: rs) ('/' :: p) _ (Nat.le_refl _) rfl,
        runLoop_cons, if_pos hsep]

/-- A doubled separator after a non-empty root changes nothing. -/
theorem clean_double_sep (root p : GoString) (h : root ≠ []) :
    Clean (root ++ '/' :: '/' :: p) = Clean (root ++ '/' :: p) := by
  cases root with
  | nil => exact absurd rfl h
  | cons c rs =>
    have hsep : os.IsPathSeparator '/' = true := by decide
    rw [(clean_join c rs ('/' :: p)).2, (clean_join c rs p).2]
    split
    · rw [runLoop_cons, if_pos hsep]
    · rw [runLoop_cons, if_pos hsep]

/-- Cleaning `root/p`, for a non-empty `root` and a `p` without `..` element, gives
the cleaned root, or a path below it; the roots `/` and `.` are written without a
separator of their own. -/
theorem clean_under (root p : GoString) (h : root ≠ []) (hp : hasDotDot p = false) :
    Clean (root ++ '/' :: p) = Clean root ∨
    (Clean root = ['/'] ∧ ∃ rel, Clean (root ++ '/' :: p) = '/' :: rel ∧ rel ≠ [] ∧
      rel.head? ≠ some '/' ∧ hasDotDot rel = false) ∨
    (Clean root = ['.'] ∧ Clean (root ++ '/' :: p) ≠ [] ∧
      (Clean (root ++ '/' :: p)).head? ≠ some '/' ∧ hasDotDot (Clean (root ++ '/' :: p)) = false) ∨
    (∃ rel, Clean (root ++ '/' :: p) = Clean root ++ '/' :: rel ∧ hasDotDot rel = false) := by
  cases root with
  | nil => exact absurd rfl h
  | cons c rs =>
    obtain ⟨e1, e2⟩ := clean_join c rs p
    rw [e1, e2]
    by_cases hc : os.IsPathSeparator c = true
    · simp only [if_pos hc]
      obtain ⟨hdd, tl, hout⟩ := runLoop_rooted rs.length rs ⟨['/'], 1⟩ (Nat.le_refl _)
        ⟨rfl, [], rfl⟩
      obtain ⟨tail, ht, hext⟩ := runLoop_noDotDot true p.length p
        (runLoop true rs ⟨['/'], 1⟩) (Nat.le_refl _) hp
      have hf1 : finish (runLoop true rs ⟨['/'], 1⟩) = '/' :: tl := by
        simp [finish, hout]
      have hf2 : finish (runLoop true p (runLoop true rs ⟨['/'], 1⟩)) = '/' :: tl ++ tail := by
        simp [finish, ht, hout]
      rw [hf1, hf2]
      rw [hout] at hext
      rcases hext with h0 | ⟨_, rel, hrel, hnd⟩ | ⟨hns, hne, hhd, hnd⟩
      · left; simp [h0]
      · right; right; right
        exact ⟨rel, by rw [hrel], hnd⟩
      · right; left
        have htl : tl = [] := by
          cases tl with
          | nil => rfl
          | cons a t => simp [needsSep] at hns
        subst htl
        exact ⟨rfl, tail, rfl, hne, hhd, hnd⟩
    · simp only [if_neg hc]
      obtain ⟨tail, ht, hext⟩ := runLoop_noDotDot false p.length p
        (runLoop false (c :: rs) ⟨[], 0⟩) (Nat.le_refl _) hp
      generalize runLoop false (c :: rs) ⟨[], 0⟩ = b at ht hext
      generalize runLoop false p b = b2 at ht
      rcases hext with h0 | ⟨hns, rel, hrel, hnd⟩ | ⟨hns, hne, hhd, hnd⟩
      · left
        subst h0
        simp only [List.append_nil] at ht
        simp [finish, ht]
      · right; right; right
        have hb : b.out ≠ [] := by
          intro hb; simp [needsSep, hb] at hns
        refine ⟨rel, ?_, hnd⟩
        have hb' : b.out.length ≠ 0 := by simpa using hb
        simp only [finish, ht, hrel, hb', if_false]
        simp
      · right; right; left
        have hb : b.out = [] := by
          simpa [needsSep] using hns
        rw [hb, List.nil_append] at ht
        have ht' : tail.length ≠ 0 := by simpa using hne
        refine ⟨by simp [finish, hb], ?_⟩
        simp only [finish, ht, ht', if_false]
        exact ⟨hne, hhd, hnd⟩

end filepath


open filepath


/-! ## Lemmas about the request pipeline -/

/-- For a non-empty root, `filename` is the cleaned `root/path`. -/
theorem filename_eq_clean (root p : GoString) (h : root ≠ []) :
    filename root p =
      Clean (root ++ '/' :: (if p ≠ ['/'] then p else "index.html".data)) := by
  unfold filename
  simp only [filepath.Join, if_pos h, strings.Join]
  simp

theorem hasDotDot_default (p : GoString) (h : hasDotDot p = false) :
    hasDotDot (if p ≠ ['/'] then p else "index.html".data) = false := by
  split
  · exact h
  · decide

theorem stripLeading_append (p s : GoString) : stripLeading p (p ++ s) = some s := by
  induction p with
  | nil => cases s <;> rfl
  | cons a p ih => simp [stripLeading, ih]

theorem hasDotDot_dot_sep (rel : GoString) (h : hasDotDot rel = false) :
    hasDotDot ('.' :: '/' :: rel) = false := by
  have e : elements ('.' :: '/' :: rel) = ['.'] :: elements rel := by
    have h1 : os.IsPathSeparator '.' = false := by decide
    have h2 : os.IsPathSeparator '/' = true := by decide
    simp [elements, strings.splitBy, h1, h2]
  simp only [hasDotDot, decide_eq_false_iff_not] at h ⊢
  rw [e]
  intro hm
  rcases List.mem_cons.mp hm with hm | hm
  · exact absurd hm (by decide)
  · exact h hm

theorem beneath_of_clean_under (cr res : GoString)
    (h : res = cr ∨
      (cr = ['/'] ∧ ∃ rel, res = '/' :: rel ∧ rel ≠ [] ∧ rel.head? ≠ some '/' ∧
        hasDotDot rel = false) ∨
      (cr = ['.'] ∧ res ≠ [] ∧ res.head? ≠ some '/' ∧ hasDotDot res = false) ∨
      (∃ rel, res = cr ++ '/' :: rel ∧ hasDotDot rel = false)) :
    beneath cr res = true := by
  rcases h with h | ⟨hcr, rel, hres, _, _, hnd⟩ | ⟨hcr, hne, hhd, hnd⟩ | ⟨rel, hres, hnd⟩
  · subst h; simp [beneath]
  · subst hcr; subst hres
    simp [beneath, relativeTo, hnd]
  · subst hcr
    cases res with
    | nil => exact absurd rfl hne
    | cons c r =>
      have hc : c ≠ '/' := by simpa using hhd
      simp [beneath, relativeTo, hc, hnd]
  · subst hres
    by_cases h1 : cr = ['/']
    · subst h1
      have : hasDotDot ('/' :: rel) = false := by
        rw [hasDotDot_sep_cons '/' rel (by decide)]; exact hnd
      simp [beneath, relativeTo, this]
    · by_cases h2 : cr = ['.']
      · subst h2
        have := hasDotDot_dot_sep rel hnd
        simp [beneath, relativeTo, this]
      · have e : cr ++ '/' :: rel = (cr ++ ['/']) ++ rel := by simp
        simp only [beneath, relativeTo, if_neg h1, if_neg h2, Bool.or_eq_true]
        right
        rw [e, stripLeading_append]
        simp [hnd]

/-- The two parts `filepath.Split` returns make up the path. -/
theorem split_append (name : GoString) : (Split name).1 ++ (Split name).2 = name := by
  unfold Split
  simp only
  rw [← List.reverse_append, List.takeWhile_append_dropWhile, List.reverse_reverse]






/-! ## Lemmas about headers and response writers -/

namespace Header

end Header

theorem response_body (w : ResponseWriter) : w.response.body = w.body := by
  unfold ResponseWriter.response
  split <;> rfl

theorem steps_print (s : GoString) (as : List Action) (w : ResponseWriter) :
    w.steps (Action.print s :: as) = w.steps as := rfl

/-! ### Decimal numbers -/

namespace strconv

theorem digitValue_digit (d : Nat) (h : d < 10) : digitValue (digit d) = some d := by
  interval_cases d <;> rfl

theorem digit_not_sign (d : Nat) : digit d ≠ '+' ∧ digit d ≠ '-' := by
  unfold digit
  split <;> decide

theorem foldl_digits :
    ∀ (fuel n : Nat), n < fuel → (digits fuel n).foldl accumulate (some 0) = some n := by
  intro fuel
  induction fuel with
  | zero => intro n h; omega
  | succ fuel ih =>
    intro n h
    unfold digits
    by_cases hn : n < 10
    · simp only [if_pos hn, List.foldl_cons, List.foldl_nil, accumulate,
        digitValue_digit n hn]
      simp
    · simp only [if_neg hn, List.foldl_append, List.foldl_cons, List.foldl_nil]
      rw [ih (n / 10) (by omega)]
      simp only [accumulate, digitValue_digit (n % 10) (by omega)]
      congr 1
      omega

theorem digits_head :
    ∀ (fuel n : Nat), n < fuel → ∃ d t, digits fuel n = digit d :: t := by
  intro fuel
  induction fuel with
  | zero => intro n h; omega
  | succ fuel ih =>
    intro n h
    unfold digits
    by_cases hn : n < 10
    · exact ⟨n, [], by simp [hn]⟩
    · obtain ⟨d, t, e⟩ := ih (n / 10) (by omega)
      exact ⟨d, t ++ [digit (n % 10)], by simp [hn, e]⟩

/-- Reading back what `FormatInt` writes gives the number. -/
theorem parse_format (n : Nat) (h : n < 2 ^ 63) : parseNonNegative (FormatInt n) = some n := by
  obtain ⟨d, t, e⟩ := digits_head (n + 1) n (by omega)
  have hf := foldl_digits (n + 1) n (by omega)
  unfold FormatInt
  rw [e] at hf ⊢
  have hs := digit_not_sign d
  simp only [parseNonNegative, if_neg hs.1, if_neg hs.2, parseDigits]
  rw [if_neg (by simp), hf]
  have h' : n < 9223372036854775808 := by simpa using h
  simp [Option.filter, h']

theorem format_ne_nil (n : Nat) : FormatInt n ≠ [] := by
  obtain ⟨d, t, e⟩ := digits_head (n + 1) n (by omega)
  unfold FormatInt
  rw [e]
  simp

end strconv



/-! ### Writes that are accepted -/

theorem writeHeader_done (w : ResponseWriter) (code : Nat) (p : Nat × Header)
    (h : w.wroteHeader = some p) : w.WriteHeader code = w := by
  unfold ResponseWriter.WriteHeader
  rw [h]

theorem writeHeader_body (w : ResponseWriter) (code : Nat) :
    (w.WriteHeader code).body = w.body := by
  unfold ResponseWriter.WriteHeader
  cases hs : w.wroteHeader with
  | some p => rfl
  | none =>
    simp only
    split
    · rfl
    · split
      · rfl
      · split <;> rfl

theorem write_nil (w : ResponseWriter) : w.Write [] = w.WriteHeader 200 := by
  unfold ResponseWriter.Write
  simp

/-- The three outcomes of a non-empty `Write`, after the header is written. -/
theorem write_cases (w : ResponseWriter) (b : GoString) (hb : b ≠ []) :
    ((w.WriteHeader 200).bodyAllowed = false ∧ w.Write b = w.WriteHeader 200) ∨
    ((w.WriteHeader 200).bodyAllowed = true ∧
      ∃ n, (w.WriteHeader 200).contentLength = some n ∧
        (w.WriteHeader 200).written + b.length > n ∧
        w.Write b = { w.WriteHeader 200 with
          written := (w.WriteHeader 200).written + b.length }) ∨
    ((w.WriteHeader 200).bodyAllowed = true ∧
      (∀ n, (w.WriteHeader 200).contentLength = some n →
        ¬ (w.WriteHeader 200).written + b.length > n) ∧
      w.Write b = { w.WriteHeader 200 with
        written := (w.WriteHeader 200).written + b.length,
        body := (w.WriteHeader 200).body ++ b }) := by
  have hlen : b.length ≠ 0 := by simpa using hb
  unfold ResponseWriter.Write
  simp only [if_neg hlen]
  by_cases hal : (w.WriteHeader 200).bodyAllowed = true
  · right
    simp only [hal, Bool.not_true, Bool.false_eq_true, if_false, true_and]
    cases hcl : (w.WriteHeader 200).contentLength with
    | none => right; simp
    | some n =>
      by_cases hgt : (w.WriteHeader 200).written + b.length > n
      · left; exact ⟨n, rfl, hgt, by simp [hgt]⟩
      · right
        refine ⟨fun m hm => ?_, by simp [hgt]⟩
        simp only [Option.some.injEq] at hm
        subst hm; exact hgt
  · left
    simp only [Bool.not_eq_true] at hal
    simp [hal]

/-- A non-empty write that leaves the body as it was has been refused, and the
writer is then refusing for good. -/
theorem write_refused (w : ResponseWriter) (b : GoString) (hb : b ≠ [])
    (h : (w.Write b).body = w.body) : Refusing (w.Write b) := by
  have hwh : (w.WriteHeader 200).wroteHeader ≠ none := by
    unfold ResponseWriter.WriteHeader
    cases hs : w.wroteHeader with
    | some p => simp [hs]
    | none =>
      simp only
      rw [if_neg (by decide)]
      split
      · simp
      · split <;> simp
  rcases write_cases w b hb with ⟨k, e⟩ | ⟨_, n, k1, k2, e⟩ | ⟨_, _, e⟩
  · rw [e]; exact ⟨hwh, Or.inl k⟩
  · rw [e]; exact ⟨hwh, Or.inr ⟨n, k1, k2⟩⟩
  · rw [e] at h
    simp only [writeHeader_body] at h
    exact absurd (List.append_right_eq_self.mp h) hb

theorem refusing_step (w : ResponseWriter) (a : Action) (hw : Refusing w) :
    Refusing (w.step a) ∧ (w.step a).body = w.body := by
  obtain ⟨h1, h2⟩ := hw
  obtain ⟨p, hp⟩ := Option.ne_none_iff_exists'.mp h1
  have hwh : ∀ code, w.WriteHeader code = w := fun code => writeHeader_done w code p hp
  have hkeep : ∀ h : Header, Refusing { w with header := h } ∧
      ({ w with header := h } : ResponseWriter).body = w.body :=
    fun h => ⟨⟨h1, h2⟩, rfl⟩
  cases a with
  | writeHeader code =>
    rw [show w.step (Action.writeHeader code) = w.WriteHeader code from rfl, hwh]
    exact ⟨⟨h1, h2⟩, rfl⟩
  | write b =>
    rw [show w.step (Action.write b) = w.Write b from rfl]
    by_cases hnil : b = []
    · subst hnil
      have e : w.Write [] = w.WriteHeader 200 := by
        unfold ResponseWriter.Write
        simp
      rw [e, hwh]; exact ⟨⟨h1, h2⟩, rfl⟩
    · have hc := write_cases w b hnil
      rw [hwh] at hc
      rcases hc with ⟨_, e⟩ | ⟨_, n, k1, k2, e⟩ | ⟨k0, k, e⟩
      · rw [e]; exact ⟨⟨h1, h2⟩, rfl⟩
      · rw [e]; exact ⟨⟨h1, Or.inr ⟨n, k1, k2⟩⟩, rfl⟩
      · rcases h2 with h2 | ⟨n, hn, hgt⟩
        · rw [k0] at h2; cases h2
        · exact absurd (show w.written + b.length > n by omega) (k n hn)
  | setHeader k v => exact hkeep _
  | delHeader k => exact hkeep _
  | print s => exact ⟨⟨h1, h2⟩, rfl⟩
  | gzipNewWriter => exact ⟨⟨h1, h2⟩, rfl⟩
  | gzipWrite b => exact ⟨⟨h1, h2⟩, rfl⟩
  | gzipClose => exact ⟨⟨h1, h2⟩, rfl⟩
  | setHeaderIfAbsent k v =>
    simp only [ResponseWriter.step]
    split
    · exact hkeep _
    · exact ⟨⟨h1, h2⟩, rfl⟩
  | setHeaderIfEmpty g k v =>
    simp only [ResponseWriter.step]
    split
    · exact hkeep _
    · exact ⟨⟨h1, h2⟩, rfl⟩

/-- Once the response writer has refused a write it accepts no further byte,
whatever is done with it afterwards. -/
theorem refused_stays_refused (as : List Action) :
    ∀ w : ResponseWriter, Refusing w → Refusing (w.steps as) ∧ (w.steps as).body = w.body := by
  induction as with
  | nil => intro w hw; exact ⟨hw, rfl⟩
  | cons a as ih =>
    intro w hw
    obtain ⟨g1, g2⟩ := refusing_step w a hw
    obtain ⟨k1, k2⟩ := ih (w.step a) g1
    exact ⟨k1, by rw [show w.steps (a :: as) = (w.step a).steps as from rfl, k2, g2]⟩



/-! ### The compressor -/

/-- Passing a handler's calls through a `gzipResponseWriter` closes nothing. -/
theorem gzip_count_close {σ : Type} (c : GzipCodec σ) (as : List Action) :
    ∀ s : σ, List.count Action.gzipClose (gzipResponseWriter c s as).2
        = List.count Action.gzipClose as := by
  induction as with
  | nil => intro s; rfl
  | cons a as ih =>
    intro s
    cases a <;> simp [gzipResponseWriter, List.count_cons, ih]

theorem steps_append (as bs : List Action) (w : ResponseWriter) :
    w.steps (as ++ bs) = (w.steps as).steps bs := by
  simp [ResponseWriter.steps, List.foldl_append]

/-- The response of `serveContent` to a request without conditional or range header,
on a fresh response writer: status 200 and the whole content, or no body for `HEAD`. -/
theorem serveContent_response (fsrv : http.FileServer) (r : Request)
    (content modtime ctype : GoString) (hcond : http.noPreconditions r = true)
    (hsize : content.length < 2 ^ 63) :
    (ResponseWriter.fresh.steps
        (http.serveContent fsrv r content modtime ctype).actions).response.status = 200 ∧
    (ResponseWriter.fresh.steps
        (http.serveContent fsrv r content modtime ctype).actions).response.body
      = if r.Method = "HEAD".data then [] else content := by
  -- the header map once the four headers are set
  have hhdr : ∃ h : Header, ResponseWriter.fresh.steps
      ((if modtime ≠ [] then [Action.setHeader "Last-Modified".data modtime] else []) ++
        [.setHeaderIfAbsent "Content-Type".data ctype,
         .setHeader "Accept-Ranges".data "bytes".data,
         .setHeaderIfEmpty "Content-Encoding".data "Content-Length".data
           (strconv.FormatInt content.length)])
      = ⟨h, none, none, 0, []⟩ ∧
        h.Get "Content-Length".data = strconv.FormatInt content.length := by
    by_cases hm : modtime = []
    · subst hm
      refine ⟨_, rfl, ?_⟩
      simp [Header.Get, Header.Set, Header.find, Header.Del]
    · refine ⟨_, by simp only [ne_eq, hm, not_false_eq_true, if_true]; rfl, ?_⟩
      simp [Header.Get, Header.Set, Header.find, Header.Del]
  obtain ⟨h, hsteps, hget⟩ := hhdr
  have hne : h.Get "Content-Length".data ≠ [] := by
    rw [hget]; exact strconv.format_ne_nil _
  have hwh : (⟨h, none, none, 0, []⟩ : ResponseWriter).WriteHeader 200
      = ⟨h, some (200, h), some content.length, 0, []⟩ := by
    unfold ResponseWriter.WriteHeader
    simp only
    rw [if_neg (by decide), if_neg hne, hget, strconv.parse_format _ hsize]
  have hfinal : ∀ W : List Action, ResponseWriter.fresh.steps
      ((if modtime ≠ [] then [Action.setHeader "Last-Modified".data modtime] else []) ++
        [.setHeaderIfAbsent "Content-Type".data ctype,
         .setHeader "Accept-Ranges".data "bytes".data,
         .setHeaderIfEmpty "Content-Encoding".data "Content-Length".data
           (strconv.FormatInt content.length),
         .writeHeader 200] ++ W)
      = (⟨h, some (200, h), some content.length, 0, []⟩ : ResponseWriter).steps W := by
    intro W
    have elist : (if modtime ≠ [] then [Action.setHeader "Last-Modified".data modtime] else []) ++
        [.setHeaderIfAbsent "Content-Type".data ctype,
         .setHeader "Accept-Ranges".data "bytes".data,
         .setHeaderIfEmpty "Content-Encoding".data "Content-Length".data
           (strconv.FormatInt content.length),
         .writeHeader 200]
        = ((if modtime ≠ [] then [Action.setHeader "Last-Modified".data modtime] else []) ++
        [.setHeaderIfAbsent "Content-Type".data ctype,
         .setHeader "Accept-Ranges".data "bytes".data,
         .setHeaderIfEmpty "Content-Encoding".data "Content-Length".data
           (strconv.FormatInt content.length)]) ++ [Action.writeHeader 200] := by
      rw [List.append_assoc]; rfl
    rw [steps_append, elist, steps_append, hsteps]
    exact congrArg (fun w => ResponseWriter.steps w W) hwh
  have hdone := writeHeader_done ⟨h, some (200, h), some content.length, 0, []⟩ 200
    (200, h) rfl
  have hwrite : ((⟨h, some (200, h), some content.length, 0, []⟩ : ResponseWriter).Write
      content).wroteHeader = some (200, h) ∧
      ((⟨h, some (200, h), some content.length, 0, []⟩ : ResponseWriter).Write
      content).body = content := by
    by_cases hnil : content = []
    · rw [hnil, write_nil, writeHeader_done _ 200 (200, h) rfl]
      exact ⟨rfl, rfl⟩
    · have hc := write_cases ⟨h, some (200, h), some content.length, 0, []⟩ content hnil
      rw [hdone] at hc
      rcases hc with ⟨k, _⟩ | ⟨_, n, k1, k2, _⟩ | ⟨_, _, e⟩
      · simp [ResponseWriter.bodyAllowed, http.bodyAllowedForStatus] at k
      · simp only [Option.some.injEq] at k1
        subst k1
        simp at k2
      · rw [e]
        exact ⟨rfl, by simp⟩
  have hact : (http.serveContent fsrv r content modtime ctype).actions
      = (if modtime ≠ [] then [Action.setHeader "Last-Modified".data modtime] else []) ++
        [.setHeaderIfAbsent "Content-Type".data ctype,
         .setHeader "Accept-Ranges".data "bytes".data,
         .setHeaderIfEmpty "Content-Encoding".data "Content-Length".data
           (strconv.FormatInt content.length),
         .writeHeader 200] ++
        (if r.Method ≠ "HEAD".data then [Action.write content] else []) := by
    unfold http.serveContent
    rw [if_pos hcond]
  rw [hact, hfinal]
  by_cases hhead : r.Method = "HEAD".data
  · rw [if_neg (not_not.mpr hhead), if_pos hhead]
    exact ⟨rfl, rfl⟩
  · rw [if_pos hhead, if_neg hhead]
    have e2 : (⟨h, some (200, h), some content.length, 0, []⟩ : ResponseWriter).steps
        [Action.write content] = (⟨h, some (200, h), some content.length, 0, []⟩ :
          ResponseWriter).Write content := rfl
    rw [e2]
    obtain ⟨k1, k2⟩ := hwrite
    constructor
    · unfold ResponseWriter.response
      rw [k1]
    · rw [response_body, k2]


/-! ## `..` elements are rejected by `http.ServeFile` -/

/-- Splitting at more separators keeps the pieces that contain none of them. -/
theorem splitBy_refine (p1 p2 : Char → Bool) (h12 : ∀ c, p1 c = true → p2 c = true)
    (s : GoString) :
    ((∀ c ∈ (strings.splitBy p1 s).headD [], p2 c = false) →
      (strings.splitBy p1 s).headD [] = (strings.splitBy p2 s).headD []) ∧
    (∀ seg ∈ (strings.splitBy p1 s).tail, (∀ c ∈ seg, p2 c = false) →
      seg ∈ (strings.splitBy p2 s).tail) := by
  induction s with
  | nil => simp [strings.splitBy]
  | cons c s ih =>
    obtain ⟨ih1, ih2⟩ := ih
    have hmem : ∀ seg ∈ strings.splitBy p1 s, (∀ c ∈ seg, p2 c = false) →
        seg ∈ strings.splitBy p2 s := by
      intro seg hseg hno
      cases h1 : strings.splitBy p1 s with
      | nil => exact absurd h1 (splitBy_ne_nil p1 s)
      | cons a t1 =>
        cases h2 : strings.splitBy p2 s with
        | nil => exact absurd h2 (splitBy_ne_nil p2 s)
        | cons b t2 =>
          rw [h1, h2] at ih1 ih2
          rw [h1] at hseg
          simp only [List.headD_cons, List.tail_cons] at ih1 ih2
          rcases List.mem_cons.mp hseg with e | e
          · subst e
            rw [ih1 hno]
            exact List.mem_cons_self _ _
          · exact List.mem_cons_of_mem _ (ih2 seg e hno)
    by_cases hc1 : p1 c = true
    · have hc2 := h12 c hc1
      simp only [strings.splitBy, hc1, hc2, if_true, List.headD_cons, List.tail_cons]
      refine ⟨?_, hmem⟩
      intro _
      first | rfl | trivial
    · by_cases hc2 : p2 c = true
      · cases h1 : strings.splitBy p1 s with
        | nil => exact absurd h1 (splitBy_ne_nil p1 s)
        | cons a t1 =>
          simp only [strings.splitBy, hc1, hc2, h1, if_true, List.headD_cons, List.tail_cons]
          constructor
          · intro hno
            have := hno c (List.mem_cons_self _ _)
            rw [hc2] at this
            cases this
          · intro seg hseg hno
            exact hmem seg (by rw [h1]; exact List.mem_cons_of_mem _ hseg) hno
      · cases h1 : strings.splitBy p1 s with
        | nil => exact absurd h1 (splitBy_ne_nil p1 s)
        | cons a t1 =>
          cases h2 : strings.splitBy p2 s with
          | nil => exact absurd h2 (splitBy_ne_nil p2 s)
          | cons b t2 =>
            rw [h1, h2] at ih1 ih2
            simp only [List.headD_cons, List.tail_cons] at ih1 ih2
            simp only [strings.splitBy, hc1, hc2, h1, h2, List.headD_cons, List.tail_cons]
            constructor
            · intro hno
              have : a = b := ih1 (fun x hx => hno x (List.mem_cons_of_mem _ hx))
              simpa using this
            · exact ih2

theorem mem_splitBy_refine (p1 p2 : Char → Bool) (h12 : ∀ c, p1 c = true → p2 c = true)
    (s seg : GoString) (hseg : seg ∈ strings.splitBy p1 s) (hno : ∀ c ∈ seg, p2 c = false) :
    seg ∈ strings.splitBy p2 s := by
  obtain ⟨k1, k2⟩ := splitBy_refine p1 p2 h12 s
  cases h1 : strings.splitBy p1 s with
  | nil => exact absurd h1 (splitBy_ne_nil p1 s)
  | cons a t1 =>
    cases h2 : strings.splitBy p2 s with
    | nil => exact absurd h2 (splitBy_ne_nil p2 s)
    | cons b t2 =>
      rw [h1, h2] at k1 k2
      rw [h1] at hseg
      simp only [List.headD_cons, List.tail_cons] at k1 k2
      rcases List.mem_cons.mp hseg with e | e
      · subst e
        rw [k1 hno]
        exact List.mem_cons_self _ _
      · exact List.mem_cons_of_mem _ (k2 seg e hno)

theorem contains_of_infix (sub : GoString) (a b : GoString) :
    strings.Contains (a ++ sub ++ b) sub = true := by
  induction a with
  | nil =>
    have hp : sub.isPrefixOf (sub ++ b) = true := by
      simp
    cases h : sub ++ b with
    | nil =>
      rw [h] at hp
      simpa [strings.Contains, h] using hp
    | cons c t =>
      rw [h] at hp
      simp [strings.Contains, h, hp]
  | cons x a ih =>
    simp only [List.cons_append, strings.Contains, Bool.or_eq_true]
    right
    simpa using ih

theorem elements_infix :
    ∀ (n : Nat) (x seg : GoString), x.length ≤ n → seg ∈ elements x →
      ∃ a b, x = a ++ seg ++ b := by
  intro n
  induction n with
  | zero =>
    intro x seg hx hseg
    have : x = [] := List.length_eq_zero.mp (Nat.le_zero.mp hx)
    subst this
    have : seg = [] := by simpa [elements, strings.splitBy] using hseg
    subst this
    exact ⟨[], [], rfl⟩
  | succ n ih =>
    intro x seg hx hseg
    rw [elements_eq] at hseg
    have hsplit := List.takeWhile_append_dropWhile (fun c => !os.IsPathSeparator c) x
    rcases List.mem_cons.mp hseg with e | e
    · exact ⟨[], x.dropWhile (fun c => !os.IsPathSeparator c), by rw [e]; simp⟩
    · cases hd : x.dropWhile (fun c => !os.IsPathSeparator c) with
      | nil => rw [hd] at e; simp [elementsAfter] at e
      | cons d y =>
        rw [hd] at e hsplit
        simp only [elementsAfter] at e
        have hlen : y.length ≤ n := by
          have := congrArg List.length hsplit
          simp only [List.length_append, List.length_cons] at this
          omega
        obtain ⟨a, b, hab⟩ := ih y seg hlen e
        generalize x.takeWhile (fun c => !os.IsPathSeparator c) = tw at hsplit
        refine ⟨tw ++ d :: a, b, ?_⟩
        rw [← hsplit, hab]
        simp

/-- A path with a `..` element between slashes is one `containsDotDot` reports. -/
theorem containsDotDot_of_hasDotDot (p : GoString) (h : hasDotDot p = true) :
    http.containsDotDot p = true := by
  have hm : ['.', '.'] ∈ elements p := by simpa [hasDotDot] using h
  obtain ⟨a, b, hab⟩ := elements_infix p.length p _ (Nat.le_refl _) hm
  have hc : strings.Contains p ['.', '.'] = true := by
    rw [hab]; exact contains_of_infix _ _ _
  have hf : ['.', '.'] ∈ strings.splitBy http.isSlashRune p :=
    mem_splitBy_refine os.IsPathSeparator http.isSlashRune
      (fun c hc => by simp [os.IsPathSeparator] at hc; simp [http.isSlashRune, hc]) p _ hm
      (by decide)
  unfold http.containsDotDot
  simp only [hc, Bool.not_true, Bool.false_eq_true, if_false, strings.FieldsFunc,
    List.any_eq_true, List.mem_filter]
  exact ⟨['.', '.'], ⟨hf, by decide⟩, by decide⟩



/-! ## Path resolution (C1, C2, C3, C10) -/

/-- C1: for every root directory and every request, `fileHandler` calls the
file-serving primitive once, with the request and with the path
`filepath.Join(root, "index.html")` when the request path is exactly `/` and
`filepath.Join(root, p)` for every other request path `p` (among them the empty
path, `//` and `/index.html`); apart from the optional log line, what the handler
does is what the primitive does with that path, whatever the primitive is. -/
theorem fileHandler_passes_joined_path (root : GoString) (showLog : Bool)
    (ServeFile : Request → GoString → Run) (r : Request) :
    fileHandler root showLog ServeFile r =
      ⟨(if showLog then
          [Action.print ("URL ".data ++ r.URL.Path ++ " -> ".data ++
            (if r.URL.Path = ['/'] then filepath.Join [root, "index.html".data]
             else filepath.Join [root, r.URL.Path]) ++ ['\n'])]
        else []) ++
        (ServeFile r (if r.URL.Path = ['/'] then filepath.Join [root, "index.html".data]
          else filepath.Join [root, r.URL.Path])).actions,
       (ServeFile r (if r.URL.Path = ['/'] then filepath.Join [root, "index.html".data]
          else filepath.Join [root, r.URL.Path])).exit⟩ ∧
    filename root [] = filepath.Join [root, []] ∧
    filename root "//".data = filepath.Join [root, "//".data] ∧
    filename root "/index.html".data = filepath.Join [root, "/index.html".data] := by
  refine ⟨?_, rfl, rfl, rfl⟩
  unfold fileHandler filename
  by_cases h : r.URL.Path = ['/']
  · simp [h]
  · simp [h]

/-- C2 (as stated, refuted): the empty directory argument makes the root directory
empty, and with the empty root the request paths `/` and `/index.html` resolve to
different paths, `index.html` and `/index.html`; moreover, under the root `/srv`
holding `index.html` the two responses differ, 200 against the redirect 301 of
`http.ServeFile`. -/
theorem empty_root_splits_index :
    fileDirectory "/home/user".data ⟨false, false, false, "localhost:8080".data, [[]]⟩ = [] ∧
    filename [] "/".data = "index.html".data ∧
    filename [] "/index.html".data = "/index.html".data ∧
    filename [] "/".data ≠ filename [] "/index.html".data ∧
    (respond (fileHandler "/srv".data false (http.ServeFile (plainServe demoFS)))
      (get "/".data [])).status = 200 ∧
    (respond (fileHandler "/srv".data false (http.ServeFile (plainServe demoFS)))
      (get "/index.html".data [])).status = 301 := by
  decide

/-- C2 (amended): for every non-empty root directory, relative or absolute, the
request paths `/` and `/index.html` resolve to the same file-system path, the
cleaned `root/index.html`. -/
theorem root_and_index_same_path (root : GoString) (h : root ≠ []) :
    filename root "/".data = filename root "/index.html".data ∧
    filename root "/".data = Clean (root ++ "/index.html".data) := by
  have e1 : filename root "/".data = Clean (root ++ "/index.html".data) := by
    rw [filename_eq_clean root _ h]; rfl
  have e2 : filename root "/index.html".data = Clean (root ++ '/' :: "/index.html".data) := by
    rw [filename_eq_clean root _ h]; rfl
  refine ⟨?_, e1⟩
  rw [e1, e2]
  exact (clean_double_sep root "index.html".data h).symm

theorem root_and_index_same_path_witness :
    "srv/www".data ≠ [] ∧
    filename "srv/www".data "/".data = filename "srv/www".data "/index.html".data ∧
    filename "srv/www".data "/".data = Clean ("srv/www".data ++ "/index.html".data) :=
  ⟨by decide, root_and_index_same_path "srv/www".data (by decide)⟩

/-- C3 (as stated, refuted): under the root `/srv/www` the request path
`/../etc/passwd` resolves to `/srv/etc/passwd`, which is not beneath the root; and
with the empty root (the working directory) `/etc/passwd` resolves to itself. -/
theorem traversal_escapes_root :
    filename "/srv/www".data "/../etc/passwd".data = "/srv/etc/passwd".data ∧
    beneath (Clean "/srv/www".data) (filename "/srv/www".data "/../etc/passwd".data) = false ∧
    filename [] "/etc/passwd".data = "/etc/passwd".data ∧
    beneath (Clean []) (filename [] "/etc/passwd".data) = false := by
  decide

/-- C3 (amended): for every non-empty root directory and every request path: when
the request path has no `..` element, the path `fileHandler` resolves is the
cleaned root itself or a path beneath it; when it has one (and the resolved path
may leave the root), `http.ServeFile` answers the request with 400 whatever the
resolved path is, without opening anything. -/
theorem resolved_beneath_root (root p : GoString) (h : root ≠ []) :
    (hasDotDot p = false → beneath (Clean root) (filename root p) = true) ∧
    (hasDotDot p = true →
      ∀ (openAndServe : Request → GoString → GoString → Run) (r : Request),
        r.URL.Path = p →
          http.ServeFile openAndServe r (filename root p)
            = http.serveError "invalid URL path".data 400) := by
  constructor
  · intro hp
    rw [filename_eq_clean root p h]
    exact beneath_of_clean_under _ _ (clean_under root _ h (hasDotDot_default p hp))
  · intro hp openAndServe r hr
    unfold http.ServeFile
    rw [hr, containsDotDot_of_hasDotDot p hp]
    rfl

theorem resolved_beneath_root_witness :
    "/srv/www".data ≠ [] ∧
    hasDotDot "/a/./b//c.txt".data = false ∧
    beneath (Clean "/srv/www".data) (filename "/srv/www".data "/a/./b//c.txt".data) = true ∧
    hasDotDot "/../etc/passwd".data = true ∧
    http.ServeFile (plainServe demoFS) (get "/../etc/passwd".data [])
        (filename "/srv/www".data "/../etc/passwd".data)
      = http.serveError "invalid URL path".data 400 :=
  ⟨by decide, by decide,
    (resolved_beneath_root "/srv/www".data "/a/./b//c.txt".data (by decide)).1 (by decide),
    by decide,
    (resolved_beneath_root "/srv/www".data "/../etc/passwd".data (by decide)).2 (by decide)
      (plainServe demoFS) (get "/../etc/passwd".data []) rfl⟩

/-- C10 (as stated, refuted): under the root `/` the request path `/a` resolves to
`/a`, which neither is `/` nor starts with `//`; under the root `.` it resolves to
`a`, which neither is `.` nor starts with `./`. -/
theorem cleaned_root_not_textual_start :
    filename "/".data "/a".data = "/a".data ∧ Clean "/".data = "/".data ∧
    hasDotDot "/a".data = false ∧
    ¬ (filename "/".data "/a".data = Clean "/".data ∨
       (Clean "/".data ++ ['/']).isPrefixOf (filename "/".data "/a".data) = true) ∧
    filename ".".data "/a".data = "a".data ∧ Clean ".".data = ".".data ∧
    ¬ (filename ".".data "/a".data = Clean ".".data ∨
       (Clean ".".data ++ ['/']).isPrefixOf (filename ".".data "/a".data) = true) := by
  decide

/-- C10 (amended): for every non-empty root directory and every request path that
has no `..` element: when the cleaned root is neither `/` nor `.`, the resolved
path is the cleaned root or starts with the cleaned root followed by a separator;
when the cleaned root is `/`, the resolved path starts with `/`; when it is `.`,
the resolved path is relative and has no `..` element. -/
theorem resolved_starts_with_root (root p : GoString) (h : root ≠ [])
    (hp : hasDotDot p = false) :
    (Clean root ≠ ['/'] → Clean root ≠ ['.'] →
      filename root p = Clean root ∨ (Clean root ++ ['/']) <+: filename root p) ∧
    (Clean root = ['/'] → (filename root p).head? = some '/') ∧
    (Clean root = ['.'] →
      (filename root p).head? ≠ some '/' ∧ hasDotDot (filename root p) = false) := by
  rw [filename_eq_clean root p h]
  have key := clean_under root _ h (hasDotDot_default p hp)
  generalize Clean (root ++ '/' :: (if p ≠ ['/'] then p else "index.html".data)) = res at key
  generalize Clean root = cr at key
  refine ⟨?_, ?_, ?_⟩
  · intro h1 h2
    rcases key with k | ⟨k, _⟩ | ⟨k, _⟩ | ⟨rel, k, _⟩
    · exact Or.inl k
    · exact absurd k h1
    · exact absurd k h2
    · right
      exact ⟨rel, by rw [k]; simp⟩
  · intro h1
    subst h1
    rcases key with k | ⟨_, rel, k, _⟩ | ⟨k, _⟩ | ⟨rel, k, _⟩
    · rw [k]; rfl
    · rw [k]; rfl
    · exact absurd k (by decide)
    · rw [k]; rfl
  · intro h1
    subst h1
    rcases key with k | ⟨k, _⟩ | ⟨_, _, k1, k2⟩ | ⟨rel, k, hnd⟩
    · rw [k]; decide
    · exact absurd k (by decide)
    · exact ⟨k1, k2⟩
    · rw [k]
      exact ⟨by simp, hasDotDot_dot_sep rel hnd⟩

theorem resolved_starts_with_root_witness :
    "../site".data ≠ [] ∧ hasDotDot "/css/main.css".data = false ∧
    Clean "../site".data ≠ ['/'] ∧ Clean "../site".data ≠ ['.'] ∧
    (filename "../site".data "/css/main.css".data = Clean "../site".data ∨
      (Clean "../site".data ++ ['/']) <+: filename "../site".data "/css/main.css".data) :=
  ⟨by decide, by decide, by decide, by decide,
    (resolved_starts_with_root "../site".data "/css/main.css".data (by decide) (by decide)).1
      (by decide) (by decide)⟩



/-! ## The compression wrapper (C4, C5, C6) -/

/-- C5: for every handler `fn` and every request whose `Accept-Encoding` header does
not contain `gzip` (a request without that header included), `makeGzipHandler(fn)`
does exactly what `fn` does on the original response writer and ends the same
way: no `Content-Encoding` is added, no compressor is created, and the response is
the response of `fn`. -/
theorem gzip_pass_through {σ : Type} (gzip : GzipCodec σ) (fn : HandlerFunc) (r : Request)
    (hae : strings.Contains (r.Header.Get "Accept-Encoding".data) "gzip".data = false) :
    makeGzipHandler gzip fn r = fn r ∧
    respond (makeGzipHandler gzip fn) r = respond fn r ∧
    List.count Action.gzipNewWriter (makeGzipHandler gzip fn r).actions
      = List.count Action.gzipNewWriter (fn r).actions ∧
    List.count (Action.setHeader "Content-Encoding".data "gzip".data)
        (makeGzipHandler gzip fn r).actions
      = List.count (Action.setHeader "Content-Encoding".data "gzip".data) (fn r).actions := by
  have h : makeGzipHandler gzip fn r = fn r := by
    unfold makeGzipHandler
    simp [hae]
  refine ⟨h, ?_, by rw [h], by rw [h]⟩
  unfold respond
  rw [h]

theorem gzip_pass_through_witness :
    strings.Contains ((get "/".data []).Header.Get "Accept-Encoding".data) "gzip".data = false ∧
    (makeGzipHandler storedCodec helloHandler (get "/".data []) = helloHandler (get "/".data []) ∧
     respond (makeGzipHandler storedCodec helloHandler) (get "/".data [])
       = respond helloHandler (get "/".data []) ∧
     List.count Action.gzipNewWriter
         (makeGzipHandler storedCodec helloHandler (get "/".data [])).actions
       = List.count Action.gzipNewWriter (helloHandler (get "/".data [])).actions ∧
     List.count (Action.setHeader "Content-Encoding".data "gzip".data)
         (makeGzipHandler storedCodec helloHandler (get "/".data [])).actions
       = List.count (Action.setHeader "Content-Encoding".data "gzip".data)
         (helloHandler (get "/".data [])).actions) :=
  ⟨by decide, gzip_pass_through storedCodec helloHandler (get "/".data []) (by decide)⟩

/-- C6: for every request that takes the compressing branch of `makeGzipHandler`, the
calls made are those of the wrapped handler (seen through the compressor) followed
by the one `Close` of the gzip writer and the write of what it flushes; the
wrapper closes exactly once, after the handler is over, and this is so however
the handler ends (normal or early return, or panic), the way it ends being passed
on unchanged. -/
theorem gzip_closed_once {σ : Type} (gzip : GzipCodec σ) (fn : HandlerFunc) (r : Request)
    (hae : strings.Contains (r.Header.Get "Accept-Encoding".data) "gzip".data = true) :
    (makeGzipHandler gzip fn r).actions =
      ([Action.setHeader "Content-Encoding".data "gzip".data, .gzipNewWriter]
        ++ (gzipResponseWriter gzip gzip.NewWriter (fn r).actions).2)
        ++ [.gzipClose,
            .write (gzip.Close (gzipResponseWriter gzip gzip.NewWriter (fn r).actions).1)] ∧
    List.count Action.gzipClose (makeGzipHandler gzip fn r).actions
      = List.count Action.gzipClose (fn r).actions + 1 ∧
    (makeGzipHandler gzip fn r).exit = (fn r).exit := by
  have hrun : makeGzipHandler gzip fn r =
      ⟨[.setHeader "Content-Encoding".data "gzip".data, .gzipNewWriter]
          ++ (gzipResponseWriter gzip gzip.NewWriter (fn r).actions).2
          ++ [.gzipClose,
              .write (gzip.Close (gzipResponseWriter gzip gzip.NewWriter (fn r).actions).1)],
        (fn r).exit⟩ := by
    unfold makeGzipHandler
    simp [hae]
  rw [hrun]
  refine ⟨rfl, ?_, rfl⟩
  simp only [List.count_append, gzip_count_close]
  simp [List.count_cons]

theorem gzip_closed_once_witness :
    strings.Contains ((get "/".data "gzip".data).Header.Get "Accept-Encoding".data)
      "gzip".data = true ∧
    (panickingHandler (get "/".data "gzip".data)).exit = Exit.panicked ∧
    ((makeGzipHandler storedCodec panickingHandler (get "/".data "gzip".data)).actions =
      ([Action.setHeader "Content-Encoding".data "gzip".data, .gzipNewWriter]
        ++ (gzipResponseWriter storedCodec storedCodec.NewWriter
            (panickingHandler (get "/".data "gzip".data)).actions).2)
        ++ [.gzipClose,
            .write (storedCodec.Close (gzipResponseWriter storedCodec storedCodec.NewWriter
              (panickingHandler (get "/".data "gzip".data)).actions).1)] ∧
    List.count Action.gzipClose
        (makeGzipHandler storedCodec panickingHandler (get "/".data "gzip".data)).actions
      = List.count Action.gzipClose (panickingHandler (get "/".data "gzip".data)).actions + 1 ∧
    (makeGzipHandler storedCodec panickingHandler (get "/".data "gzip".data)).exit
      = (panickingHandler (get "/".data "gzip".data)).exit) :=
  ⟨by decide, rfl,
    gzip_closed_once storedCodec panickingHandler (get "/".data "gzip".data) (by decide)⟩



/-! ## Serving files, logging, start-up (C7, C8, C9) -/

theorem steps_append_prints (logged as : List Action) (w : ResponseWriter)
    (h : ∀ a ∈ logged, ∃ s, a = Action.print s) : w.steps (logged ++ as) = w.steps as := by
  induction logged with
  | nil => rfl
  | cons a l ih =>
    obtain ⟨s, hs⟩ := h a (List.mem_cons_self _ _)
    subst hs
    rw [List.cons_append, steps_print]
    exact ih (fun x hx => h x (List.mem_cons_of_mem _ hx))

/-- The response of `fileHandler` is the response of the primitive on the resolved path. -/
theorem respond_fileHandler (root : GoString) (showLog : Bool)
    (ServeFile : Request → GoString → Run) (r : Request) :
    respond (fileHandler root showLog ServeFile) r
      = (ResponseWriter.fresh.steps (ServeFile r (filename root r.URL.Path)).actions).response := by
  unfold respond fileHandler
  simp only
  rw [steps_append_prints]
  intro a ha
  split at ha
  · simp only [List.mem_singleton] at ha
    exact ⟨_, ha⟩
  · simp at ha

/-- C7 (as stated, refuted): under the root `/srv`, with regular files behind all the
joined paths and no conditional or range header: `GET /index.html` is answered
with the redirect 301 and an empty body; `GET /a/../index.html` is answered 400;
`GET /a\..\b.txt`, whose path has no `..` element between slashes, is answered 400
as well; and `HEAD /a/b.txt` is answered 200 with an empty body. -/
theorem index_request_redirected :
    http.noPreconditions (get "/index.html".data []) = true ∧
    filename "/srv".data "/index.html".data = "/srv/index.html".data ∧
    demoDir (filepath.Split (filename "/srv".data "/index.html".data)).1
        (filepath.Split (filename "/srv".data "/index.html".data)).2
      = .regular "hello".data "Mon, 02 Jan 2006 15:04:05 GMT".data
          "text/html; charset=utf-8".data ∧
    (respond (fileHandler "/srv".data false (http.ServeFile (http.openAndServe demoServer)))
      (get "/index.html".data [])).status = 301 ∧
    (respond (fileHandler "/srv".data false (http.ServeFile (http.openAndServe demoServer)))
      (get "/index.html".data [])).body = [] ∧
    demoDir (filepath.Split (filename "/srv".data "/a/../index.html".data)).1
        (filepath.Split (filename "/srv".data "/a/../index.html".data)).2
      = .regular "hello".data "Mon, 02 Jan 2006 15:04:05 GMT".data
          "text/html; charset=utf-8".data ∧
    (respond (fileHandler "/srv".data false (http.ServeFile (http.openAndServe demoServer)))
      (get "/a/../index.html".data [])).status = 400 ∧
    hasDotDot "/a\\..\\b.txt".data = false ∧
    demoDir (filepath.Split (filename "/srv".data "/a\\..\\b.txt".data)).1
        (filepath.Split (filename "/srv".data "/a\\..\\b.txt".data)).2
      = .regular "slash".data "Mon, 02 Jan 2006 15:04:05 GMT".data
          "text/plain; charset=utf-8".data ∧
    (respond (fileHandler "/srv".data false (http.ServeFile (http.openAndServe demoServer)))
      (get "/a\\..\\b.txt".data [])).status = 400 ∧
    demoDir (filepath.Split (filename "/srv".data "/a/b.txt".data)).1
        (filepath.Split (filename "/srv".data "/a/b.txt".data)).2
      = .regular "world".data "Mon, 02 Jan 2006 15:04:05 GMT".data
          "text/plain; charset=utf-8".data ∧
    (respond (fileHandler "/srv".data false (http.ServeFile (http.openAndServe demoServer)))
      (head "/a/b.txt".data)).status = 200 ∧
    (respond (fileHandler "/srv".data false (http.ServeFile (http.openAndServe demoServer)))
      (head "/a/b.txt".data)).body = [] := by
  decide

/-- C7 (amended): for every root directory and every request without conditional or
range headers whose path has no `..` element between slashes or backslashes and
does not end in `/index.html`: if `http.ServeFile` finds a regular file under the
joined path (`Dir(dir).Open(file)` for the two parts of the joined path), of a
size within `int64`, the response of `fileHandler` has status 200 and, as its
body, the exact bytes of that file, or nothing if the method is `HEAD` (with and
without logging). -/
theorem regular_file_served (fsrv : http.FileServer)
    (root : GoString) (showLog : Bool) (r : Request) (content modtime ctype : GoString)
    (hcond : http.noPreconditions r = true)
    (hdd : http.containsDotDot r.URL.Path = false)
    (hidx : strings.HasSuffix r.URL.Path "/index.html".data = false)
    (hfile : fsrv.Dir (filepath.Split (filename root r.URL.Path)).1
        (filepath.Split (filename root r.URL.Path)).2 = .regular content modtime ctype)
    (hsize : content.length < 2 ^ 63) :
    (respond (fileHandler root showLog (http.ServeFile (http.openAndServe fsrv))) r).status
      = 200 ∧
    (respond (fileHandler root showLog (http.ServeFile (http.openAndServe fsrv))) r).body
      = if r.Method = "HEAD".data then [] else content := by
  rw [respond_fileHandler]
  have e : http.ServeFile (http.openAndServe fsrv) r (filename root r.URL.Path)
      = http.serveContent fsrv r content modtime ctype := by
    unfold http.ServeFile http.serveFile http.openAndServe
    simp only [hdd, hidx, Bool.false_eq_true, if_false]
    rw [hfile]
  rw [e]
  exact serveContent_response fsrv r content modtime ctype hcond hsize

theorem regular_file_served_witness :
    http.noPreconditions (get "/a/b.txt".data []) = true ∧
    http.containsDotDot (get "/a/b.txt".data []).URL.Path = false ∧
    strings.HasSuffix (get "/a/b.txt".data []).URL.Path "/index.html".data = false ∧
    demoServer.Dir (filepath.Split (filename "/srv".data (get "/a/b.txt".data []).URL.Path)).1
        (filepath.Split (filename "/srv".data (get "/a/b.txt".data []).URL.Path)).2
      = .regular "world".data "Mon, 02 Jan 2006 15:04:05 GMT".data
          "text/plain; charset=utf-8".data ∧
    "world".data.length < 2 ^ 63 ∧
    (respond (fileHandler "/srv".data true (http.ServeFile (http.openAndServe demoServer)))
        (get "/a/b.txt".data [])).status = 200 ∧
    (respond (fileHandler "/srv".data true (http.ServeFile (http.openAndServe demoServer)))
        (get "/a/b.txt".data [])).body = "world".data :=
  ⟨by decide, by decide, by decide, by decide, by decide,
    (regular_file_served demoServer "/srv".data true (get "/a/b.txt".data []) "world".data
      "Mon, 02 Jan 2006 15:04:05 GMT".data "text/plain; charset=utf-8".data
      (by decide) (by decide) (by decide) (by decide) (by decide)).1,
    (regular_file_served demoServer "/srv".data true (get "/a/b.txt".data []) "world".data
      "Mon, 02 Jan 2006 15:04:05 GMT".data "text/plain; charset=utf-8".data
      (by decide) (by decide) (by decide) (by decide) (by decide)).2⟩

/-- C8: for every root directory, file-serving primitive and request, the run of
`fileHandler` with logging enabled is the run with logging disabled preceded by
one line on standard output that pairs the request path with the resolved path:
both make the same call to the primitive with the same path, end the same way
and produce the same response. -/
theorem logging_only_prints (root : GoString) (ServeFile : Request → GoString → Run)
    (r : Request) :
    (fileHandler root true ServeFile r).actions =
      Action.print ("URL ".data ++ r.URL.Path ++ " -> ".data ++ filename root r.URL.Path
        ++ ['\n']) :: (fileHandler root false ServeFile r).actions ∧
    fileHandler root false ServeFile r = ServeFile r (filename root r.URL.Path) ∧
    (fileHandler root true ServeFile r).exit = (fileHandler root false ServeFile r).exit ∧
    respond (fileHandler root true ServeFile) r = respond (fileHandler root false ServeFile) r ∧
    stdoutOf (fileHandler root true ServeFile r).actions =
      ("URL ".data ++ r.URL.Path ++ " -> ".data ++ filename root r.URL.Path ++ ['\n'])
        :: stdoutOf (fileHandler root false ServeFile r).actions := by
  refine ⟨rfl, rfl, rfl, ?_, rfl⟩
  rw [respond_fileHandler, respond_fileHandler]

/-- C9: when the help flag is off, whatever `ListenAndServe` returns (a bind or
listen error in particular), `serveHTTP` returns after printing only its start-up
lines, nothing is logged, and `main` ends with exit code 0: the outcome is the
same for every returned error. -/
theorem bind_error_discarded {ε : Type} (currentDir : GoString) (f : Flags)
    (hhelp : f.showHelp = false) (ListenAndServe : Server → ε) :
    (main currentDir f ListenAndServe).stdout =
      ("Web server listening at ".data ++ f.port ++ " ...\n".data) ::
        (if f.useGzip then
          ["HTTP server will return gzip values if permitted by browser.\n".data]
         else []) ∧
    (main currentDir f ListenAndServe).logged = [] ∧
    (main currentDir f ListenAndServe).exitCode = 0 ∧
    (main currentDir f ListenAndServe).served =
      some ⟨⟨f.port, 3600⟩, ['/'], f.useGzip, fileDirectory currentDir f⟩ ∧
    ∀ other : Server → ε, main currentDir f other = main currentDir f ListenAndServe := by
  have h : ∀ g : Server → ε, main currentDir f g =
      ⟨("Web server listening at ".data ++ f.port ++ " ...\n".data) ::
          (if f.useGzip then
            ["HTTP server will return gzip values if permitted by browser.\n".data]
           else []),
        [], some ⟨⟨f.port, 3600⟩, ['/'], f.useGzip, fileDirectory currentDir f⟩, 0⟩ := by
    intro g
    unfold main serveHTTP
    cases hg : f.useGzip <;> simp [hhelp]
  refine ⟨?_, ?_, ?_, ?_, fun other => ?_⟩
  · rw [h]
  · rw [h]
  · rw [h]
  · rw [h]
  · rw [h, h]

theorem bind_error_discarded_witness :
    (⟨false, false, true, "localhost:8080".data, []⟩ : Flags).showHelp = false ∧
    (main "/home/user".data ⟨false, false, true, "localhost:8080".data, []⟩
        (fun _ => "listen tcp 127.0.0.1:8080: bind: address already in use".data)).logged = [] ∧
    (main "/home/user".data ⟨false, false, true, "localhost:8080".data, []⟩
        (fun _ => "listen tcp 127.0.0.1:8080: bind: address already in use".data)).exitCode = 0 :=
  ⟨rfl,
    (bind_error_discarded "/home/user".data ⟨false, false, true, "localhost:8080".data, []⟩ rfl
      (fun _ => "listen tcp 127.0.0.1:8080: bind: address already in use".data)).2.1,
    (bind_error_discarded "/home/user".data ⟨false, false, true, "localhost:8080".data, []⟩ rfl
      (fun _ => "listen tcp 127.0.0.1:8080: bind: address already in use".data)).2.2.1⟩

end Serve
